import Mathlib

/-!
Verification development for the interval-timer web app (`src/app.js`).

The file shallowly embeds the three core pieces of the program:

* the workout parser (`parseDuration`, `parseActivity`, `parseWorkout`,
  src/app.js lines 106-147), including a faithful model of the backtracking
  behaviour of the two regular expressions used there;
* the set-expansion flattener (`flattenWorkout`, lines 152-174);
* the timer state machine (`start`, `startActivity`, `tick`, `next`,
  `pause`, `resume`, `stop`, `finish`, lines 204-312) together with a
  one-second scheduler step (`second`) that models the wall-clock firing of
  the `setInterval` tick and the pending `setTimeout` cue.

JavaScript `undefined`/`NaN` values that arise from the spread of a failed
parse (`{type:"activity", ...null}`) are modelled with `Option`: a missing
`name`/`duration` is `none`, and a `NaN` `remaining` is `none`.
-/

namespace IntervalTimer

/-! ## Characters

JS `\s`, `\d`, `.` and `trim` restricted to the ASCII range that the
workout grammar uses. -/

/-- The whitespace class used by JS `\s` and `String.prototype.trim`
(ASCII part). -/
def isWs (c : Char) : Bool := c = ' ' || c = '\t' || c = '\n' || c = '\r'

/-- JS `\d`. -/
def isDigitC (c : Char) : Bool := '0' ≤ c && c ≤ '9'

/-- JS line terminators, which `.` does not match. -/
def lineTerm (c : Char) : Bool := c = '\n' || c = '\r'

/-- `String.prototype.trim` on a character list. -/
def trimChars (cs : List Char) : List Char :=
  ((cs.dropWhile isWs).reverse.dropWhile isWs).reverse

/-- Numeric value of a digit string, as computed by `parseInt` on a string
that starts with the digit run (leading zeros allowed). -/
def natOfDigits (ds : List Char) : Nat :=
  ds.foldl (fun n ch => n * 10 + (ch.toNat - 48)) 0

/-- `String.prototype.split(sep)` for a one-character separator. -/
def splitOnCh (sep : Char) : List Char → List (List Char)
  | [] => [[]]
  | c :: rest =>
    let r := splitOnCh sep rest
    if c = sep then [] :: r
    else
      match r with
      | h :: t => (c :: h) :: t
      | [] => [[c]]

/-! ## A backtracking matcher for the two activity regexes

`parseActivity` (src/app.js line 120) matches
`/^(\d+\s*(?:m|min|s|sec)(?:\s*\d*\s*(?:s|sec))?)(?:\s+(.*))?$/i`
and `parseWorkout` (line 137) matches `/^(\d+)x\s*\((.+)\)$/i`.

A sub-pattern is modelled as a function from the input suffix to the
priority-ordered list of `(consumed, remainder)` splits that the JS
backtracking engine would try, greedy alternatives first and alternation
branches in source order.  The first split whose continuation succeeds is
the one the engine commits to. -/

/-- Priority-ordered splits of a pattern: consumed prefix and remainder. -/
abbrev Splits := List (List Char × List Char)

/-- Sequencing of two sub-patterns, preserving backtracking priority. -/
def thenM (xs : Splits) (f : List Char → Splits) : Splits :=
  (xs.map (fun pr => (f pr.2).map (fun qr => (pr.1 ++ qr.1, qr.2)))).flatten

/-- Greedy `\s*`: longest split first, down to the empty split. -/
def spacesStarSplits (cs : List Char) : Splits :=
  let run := cs.takeWhile isWs
  let rest := cs.dropWhile isWs
  (List.range (run.length + 1)).map
    (fun j => (run.take (run.length - j), run.drop (run.length - j) ++ rest))

/-- Greedy `\d*`: longest split first, down to the empty split. -/
def digitsStarSplits (cs : List Char) : Splits :=
  let run := cs.takeWhile isDigitC
  let rest := cs.dropWhile isDigitC
  (List.range (run.length + 1)).map
    (fun j => (run.take (run.length - j), run.drop (run.length - j) ++ rest))

/-- Greedy `\d+`: longest split first, at least one digit. -/
def digitsPlusSplits (cs : List Char) : Splits :=
  let run := cs.takeWhile isDigitC
  let rest := cs.dropWhile isDigitC
  (List.range run.length).map
    (fun j => (run.take (run.length - j), run.drop (run.length - j) ++ rest))

/-- A case-insensitive literal (the `/i` flag); `lit` is given lowercase. -/
def litSplit (lit : List Char) (cs : List Char) : Splits :=
  let pre := cs.take lit.length
  if pre.map Char.toLower = lit ∧ lit.length ≤ cs.length then
    [(pre, cs.drop lit.length)]
  else []

/-- `(?:m|min|s|sec)` in source order. -/
def unitAltSplits (cs : List Char) : Splits :=
  litSplit ['m'] cs ++ litSplit ['m', 'i', 'n'] cs ++
  litSplit ['s'] cs ++ litSplit ['s', 'e', 'c'] cs

/-- `(?:s|sec)` in source order. -/
def secAltSplits (cs : List Char) : Splits :=
  litSplit ['s'] cs ++ litSplit ['s', 'e', 'c'] cs

/-- `\s*\d*\s*(?:s|sec)`, the body of the optional second duration token. -/
def secPartSplits (cs : List Char) : Splits :=
  thenM (thenM (thenM (spacesStarSplits cs) digitsStarSplits) spacesStarSplits)
    secAltSplits

/-- `(?:\s*\d*\s*(?:s|sec))?`: greedy, so the present branch comes first. -/
def optSecPartSplits (cs : List Char) : Splits :=
  secPartSplits cs ++ [([], cs)]

/-- Capture group 1 of the activity regex:
`\d+\s*(?:m|min|s|sec)(?:\s*\d*\s*(?:s|sec))?`. -/
def durGroupSplits (cs : List Char) : Splits :=
  thenM (thenM (thenM (digitsPlusSplits cs) spacesStarSplits) unitAltSplits)
    optSecPartSplits

/-- The tail `(?:\s+(.*))?$` of the activity regex on the remainder `r`:
succeeds with name `[]` when `r` is empty (group 2 undefined), or with the
text after the leading whitespace when `r` starts with whitespace and the
rest contains no line terminator (`.` does not match them and `$` only
matches at the very end).  Shrinking the greedy `\s+` only puts whitespace
characters back in front of the candidate name, so it can never remove a
line terminator; the maximal split decides. -/
def tailName? (r : List Char) : Option (List Char) :=
  match r with
  | [] => some []
  | c :: _ =>
    if isWs c then
      let nm := r.dropWhile isWs
      if nm.any lineTerm then none else some nm
    else none

/-! ## The parser (src/app.js lines 106-147) -/

/-- A successfully parsed activity spec. -/
structure Activity where
  name : String
  duration : Nat
deriving Repr, DecidableEq

/-- One backtracking attempt of `(\d+)\s*(u...)` at the current position,
where both alternation branches begin with the letter `u`: the digit run
must be maximal (a shorter run leaves a digit where `\s*` and the unit
letter would have to match) and likewise the whitespace run, so the match
succeeds exactly when the first character after the runs has lowercase `u`.
Returns the captured digits, which is also what `parseInt` applied to the
match array yields, since the whole match starts with the digit run. -/
def attemptUnit (u : Char) (cs : List Char) : Option Nat :=
  let ds := cs.takeWhile isDigitC
  if ds = [] then none
  else
    match (cs.dropWhile isDigitC).dropWhile isWs with
    | x :: _ => if x.toLower = u then some (natOfDigits ds) else none
    | [] => none

/-- Leftmost-first search of `(\d+)\s*(u...)` over the string, advancing one
position at a time as the JS engine does. -/
def scanFor (u : Char) : List Char → Option Nat
  | [] => none
  | x :: rest =>
    match attemptUnit u (x :: rest) with
    | some v => some v
    | none => scanFor u rest

/-- `parseDuration` (src/app.js lines 106-113): first match of
`/(\d+)\s*(m|min)/i` contributes `minutes * 60`, first match of
`/(\d+)\s*(s|sec)/i` contributes the seconds; a missing match contributes
nothing. -/
def parseDuration (g : List Char) : Nat :=
  60 * (scanFor 'm' g).getD 0 + (scanFor 's' g).getD 0

/-- `parseActivity` (src/app.js lines 115-129) on a character list: trim,
then find the first split of the duration group whose tail
`(?:\s+(.*))?$` succeeds; `name` is group 2 trimmed (empty string when the
group is absent) and `duration` is `parseDuration` of group 1. -/
def parseActivityChars (text : List Char) : Option Activity :=
  let line := trimChars text
  (durGroupSplits line).findSome? (fun gr =>
    (tailName? gr.2).map (fun nm => ⟨⟨trimChars nm⟩, parseDuration gr.1⟩))

/-- `parseActivity` on a string. -/
def parseActivity (text : String) : Option Activity :=
  parseActivityChars text.data

/-- A node of the parsed plan.  `activity none` models the JS object
`{type: "activity", ...null}` produced for a line that fails
`parseActivity`: the spread of `null` adds no fields, and the object is
truthy, so the trailing `.filter(Boolean)` of `parseWorkout` does not drop
it. -/
inductive PlanNode where
  | activity (a : Option Activity)
  | set (repeatCount : Nat) (steps : List Activity)
deriving Repr, DecidableEq

/-- The set-line regex `/^(\d+)x\s*\((.+)\)$/i` (src/app.js line 137): a
maximal digit run (a shorter run leaves a digit where `x` must be), the
letter `x`, maximal whitespace (whitespace is not `(`), an opening
parenthesis, then `(.+)\)$`, whose greedy `.+` makes the group run to the
last `)`, which `$` forces to be the final character; the content must be
non-empty and free of line terminators. -/
def setMatch (line : List Char) : Option (Nat × List Char) :=
  let ds := line.takeWhile isDigitC
  if ds = [] then none
  else
    match (line.dropWhile isDigitC) with
    | x :: rest =>
      if x.toLower = 'x' then
        match rest.dropWhile isWs with
        | '(' :: inner =>
          if inner.getLast? = some ')' then
            let content := inner.dropLast
            if content ≠ [] ∧ content.any lineTerm = false then
              some (natOfDigits ds, content)
            else none
          else none
        | _ => none
      else none
    | [] => none

/-- `parseWorkout` (src/app.js lines 131-147): split on newlines, trim,
drop blank lines, then parse each line as a set line or an activity line.
The final `.filter(Boolean)` of the source drops nothing, because the
mapping always returns an object; in particular an unparseable activity
line yields the degenerate node `activity none` (see `PlanNode`). Items of
a set line that fail to parse are dropped by the inner
`.filter(Boolean)`, which does see `null`s. -/
def parseWorkout (text : String) : List PlanNode :=
  (((splitOnCh '\n' text.data).map trimChars).filter (fun l => l ≠ [])).map
    (fun line =>
      match setMatch line with
      | none => PlanNode.activity (parseActivityChars line)
      | some nc =>
        PlanNode.set nc.1
          ((splitOnCh ',' nc.2).filterMap (fun s => parseActivityChars s)))

/-! ## The flattener (src/app.js lines 152-174) -/

/-- A step of the flattened timeline.  `name`/`duration` are `none` for the
degenerate node of an unparseable line (JS `undefined`); `interval` and
`intervalTotal` are present exactly on steps that came from a set. -/
structure RawStep where
  name : Option String
  duration : Option Nat
  interval : Option Nat
  intervalTotal : Option Nat
deriving Repr, DecidableEq

/-- Expansion of one set: `for (r = 1; r <= repeat; r++)` around
`steps.forEach(push)` (src/app.js lines 161-169). -/
def setExpansion (rpt : Nat) (steps : List Activity) : List RawStep :=
  ((List.range rpt).map (fun r0 =>
    steps.map (fun st => ⟨some st.name, some st.duration, some (r0 + 1), some rpt⟩))).flatten

/-- `flattenWorkout` (src/app.js lines 152-174): a fold that pushes one
step per activity node and the set expansion per set node. -/
def flattenWorkout (parsed : List PlanNode) : List RawStep :=
  parsed.foldl
    (fun timeline block =>
      match block with
      | .activity a =>
        timeline ++ [⟨a.map Activity.name, a.map Activity.duration, none, none⟩]
      | .set rpt steps => timeline ++ setExpansion rpt steps)
    []

/-! ## The timer engine (src/app.js lines 179-312) -/

/-- The mutable timer state of src/app.js lines 179-187.
`remaining = none` models the `NaN` produced when a degenerate step's
`undefined` duration flows through `Math.max(0, undefined - ...)`;
`intervalActive` models `intervalId` being non-null (a periodic tick is
scheduled) and `cueDelay` models a pending `sampleTimeoutId` with the
number of whole seconds until it fires. -/
structure EngineState where
  timeline : List RawStep
  index : Nat
  remaining : Option Nat
  elapsed : Nat
  intervalActive : Bool
  cueDelay : Option Nat
  isRunning : Bool
  isPaused : Bool
deriving Repr, DecidableEq

/-- The initial state of the page (lines 179-187). -/
def initState : EngineState :=
  ⟨[], 0, some 0, 0, false, none, false, false⟩

/-- Observable events of the engine: per-second progress snapshots
(`updateUI`), the pre-end cue (`playSample`), the cosmetic pulse
(`pulseClock`), and the display writes of `stop` and `finish`.  A cue
event records the step index during which it fires, so that per-step cue
counts can be stated. -/
inductive Event where
  | snapshot (remaining : Option Nat) (elapsed : Nat) (name : Option String)
      (interval intervalTotal : Option Nat) (totalRemaining : Option Int)
  | cue (index : Nat)
  | pulse
  | stopDisplay (clock activity interval elapsed remaining : String)
  | doneDisplay (clock activity : String)
deriving Repr, DecidableEq

/-- `timeline[index]`: an out-of-range access yields JS `undefined`, whose
fields are all `undefined`, modelled by the all-`none` record.  (Reading a
field of `undefined` itself would throw in JS; the engine only does that
in states the claims exclude.) -/
def stepAt (tl : List RawStep) (i : Nat) : RawStep :=
  tl.getD i ⟨none, none, none, none⟩

/-- Sum of the durations of a timeline slice; `none` once any step has an
`undefined` duration (`NaN` contaminates the JS `reduce`). -/
def sumDur? (tl : List RawStep) : Option Nat :=
  tl.foldr
    (fun st acc =>
      match st.duration, acc with
      | some d, some a => some (d + a)
      | _, _ => none)
    (some 0)

/-- `updateUI` (src/app.js lines 323-339) as a snapshot event:
`totalRemaining` is the sum of the durations from `index` on, minus the
already-consumed part `duration - remaining` of the current step. -/
def updateUI (s : EngineState) : Event :=
  let cur := stepAt s.timeline s.index
  let tot : Option Int :=
    match sumDur? (s.timeline.drop s.index), cur.duration, s.remaining with
    | some t, some d, some r => some ((t : Int) - ((d : Int) - (r : Int)))
    | _, _, _ => none
  .snapshot s.remaining s.elapsed cur.name cur.interval cur.intervalTotal tot

/-- `startActivity(subtractOne)` (src/app.js lines 217-240): cancel both
timers, set `remaining = Math.max(0, duration - (subtractOne ? 1 : 0))`
(truncated subtraction on `Nat`; `none` propagates the `NaN` of an
`undefined` duration), emit the snapshot, restart the periodic tick, and
schedule the pre-end cue unless this is the last step: fire after
`remaining - 3` seconds when `remaining > 3`, immediately when
`remaining == 3` (a `NaN` `remaining` satisfies neither comparison). -/
def startActivity (subtractOne : Bool) (s : EngineState) :
    EngineState × List Event :=
  let rem : Option Nat :=
    (stepAt s.timeline s.index).duration.map
      (fun d => d - (if subtractOne then 1 else 0))
  let s1 : EngineState :=
    { s with intervalActive := false, cueDelay := none, remaining := rem }
  let snap := updateUI s1
  let s2 := { s1 with intervalActive := true }
  if s2.index < s2.timeline.length - 1 then
    match rem with
    | some r =>
      if r > 3 then ({ s2 with cueDelay := some (r - 3) }, [snap])
      else if r = 3 then (s2, [snap, .cue s2.index])
      else (s2, [snap])
    | none => (s2, [snap])
  else (s2, [snap])

/-- `finish` (src/app.js lines 305-312): cancel both timers, write the done
display, leave `isPaused` as it is. -/
def finish (s : EngineState) : EngineState × List Event :=
  ({ s with intervalActive := false, cueDelay := none, isRunning := false },
   [.doneDisplay "🎉" "done"])

/-- `next` (src/app.js lines 252-259): advance the index; finish past the
end, otherwise begin the next step with one second already subtracted. -/
def next (s : EngineState) : EngineState × List Event :=
  let s1 := { s with index := s.index + 1 }
  if s1.index ≥ s1.timeline.length then finish s1 else startActivity true s1

/-- `tick` (src/app.js lines 242-250): advance when `remaining <= 0`,
otherwise decrement `remaining`, increment `elapsed`, snapshot and pulse.
A `NaN` `remaining` compares false, stays `NaN` under the decrement, and
still increments `elapsed`. -/
def tick (s : EngineState) : EngineState × List Event :=
  match s.remaining with
  | some 0 => next s
  | some (r + 1) =>
    let s1 := { s with remaining := some r, elapsed := s.elapsed + 1 }
    (s1, [updateUI s1, .pulse])
  | none =>
    let s1 := { s with elapsed := s.elapsed + 1 }
    (s1, [updateUI s1, .pulse])

/-- `pause` (src/app.js lines 261-267): cancel both timers and flip the
flags; `remaining` and `elapsed` are untouched and nothing is emitted. -/
def pause (s : EngineState) : EngineState × List Event :=
  ({ s with intervalActive := false, cueDelay := none,
            isPaused := true, isRunning := false },
   [])

/-- `resume` (src/app.js lines 269-288): flip the flags, restart the
periodic tick, and — only when the current step is not the last — clear
any pending cue timeout and re-derive the schedule from the current
`remaining`, exactly as `startActivity` does. -/
def resume (s : EngineState) : EngineState × List Event :=
  let s1 := { s with isPaused := false, isRunning := true, intervalActive := true }
  if s1.index < s1.timeline.length - 1 then
    let s2 := { s1 with cueDelay := none }
    match s2.remaining with
    | some r =>
      if r > 3 then ({ s2 with cueDelay := some (r - 3) }, [])
      else if r = 3 then (s2, [.cue s2.index])
      else (s2, [])
    | none => (s2, [])
  else (s1, [])

/-- `stop` (src/app.js lines 290-303): cancel both timers, clear both
flags, and write the reset display; the numeric state and the stored
timeline are left as they are. -/
def stop (s : EngineState) : EngineState × List Event :=
  ({ s with intervalActive := false, cueDelay := none,
            isRunning := false, isPaused := false },
   [.stopDisplay "00:00" "ready" "" "0:00" "0:00"])

/-- `start` (src/app.js lines 204-215): the global `timeline` is assigned
the freshly parsed and flattened plan of the input text *before* the
emptiness check, so an empty result still overwrites it; otherwise reset
`index`/`elapsed`, set the flags and begin the first step with the full
duration. -/
def start (text : String) (s : EngineState) : EngineState × List Event :=
  let tl := flattenWorkout (parseWorkout text)
  let s1 := { s with timeline := tl }
  if tl.length = 0 then (s1, [])
  else
    let s2 := { s1 with index := 0, elapsed := 0, isRunning := true, isPaused := false }
    startActivity false s2

/-- One second of wall-clock time.  While the periodic tick is scheduled,
the pending cue timeout (if any) counts down and fires when it reaches
zero, and the tick callback runs.  When both callbacks are due in the same
second, the JS engine runs them in registration order (the interval is
registered before the timeout in `startActivity` and in `resume`); in
every state the engine reaches, a pending cue implies `remaining =
cueDelay + 3 > 0`, so the tick neither advances the step nor touches the
pending timeout in that second and the two orders produce the same state
and the same set of events — the cue is processed first here.  When no
tick is scheduled (paused/idle/finished states) no timer is pending
either, and the second changes nothing. -/
def second (s : EngineState) : EngineState × List Event :=
  if s.intervalActive then
    let fired :=
      match s.cueDelay with
      | some c =>
        if c ≤ 1 then ({ s with cueDelay := none }, [Event.cue s.index])
        else ({ s with cueDelay := some (c - 1) }, ([] : List Event))
      | none => (s, [])
    let ticked := tick fired.1
    (ticked.1, fired.2 ++ ticked.2)
  else (s, [])

/-- `n` seconds of wall-clock time, collecting all events in order. -/
def runSeconds : Nat → EngineState → EngineState × List Event
  | 0, s => (s, [])
  | n + 1, s =>
    let fst := second s
    let rest := runSeconds n fst.1
    (rest.1, fst.2 ++ rest.2)

/-- `n` bare invocations of the `tick` callback (state only). -/
def runTicks : Nat → EngineState → EngineState
  | 0, s => s
  | n + 1, s => runTicks n (tick s).1

/-- Number of cue firings recorded for step `i` in an event trace. -/
def cuesAt (i : Nat) (evs : List Event) : Nat :=
  evs.count (Event.cue i)

/-- Modelled from the spec's words for comparison with `flattenWorkout`:
group `r` (1-indexed) of a set is its steps, each annotated with
`interval = r, intervalTotal = R`. -/
def groupSpec (rpt : Nat) (steps : List Activity) (r : Nat) : List RawStep :=
  steps.map (fun st => ⟨some st.name, some st.duration, some r, some rpt⟩)

/-- Modelled from the spec's words: each `Activity` node becomes exactly
one step with no interval annotation, and each `Set` node with
`repeatCount = R` expands, repetition-major, into the concatenation of
groups `1..R`. -/
def flattenSpec (plan : List PlanNode) : List RawStep :=
  (plan.map (fun node =>
    match node with
    | .activity a => [⟨a.map Activity.name, a.map Activity.duration, none, none⟩]
    | .set rpt steps =>
      ((List.range rpt).map (fun r0 => groupSpec rpt steps (r0 + 1))).flatten)).flatten

/-- The length predicted by the claim: one per plain activity plus
`R * k` per set. -/
def planLenSpec : List PlanNode → Nat
  | [] => 0
  | PlanNode.activity _ :: rest => 1 + planLenSpec rest
  | PlanNode.set rpt steps :: rest => rpt * steps.length + planLenSpec rest

/-- The expansion of one plan node, shared by both definitions. -/
def nodeSteps : PlanNode → List RawStep
  | .activity a => [⟨a.map Activity.name, a.map Activity.duration, none, none⟩]
  | .set rpt steps => setExpansion rpt steps

/-- The `remaining` field of a snapshot event. -/
def snapRemaining? : Event → Option (Option Nat)
  | .snapshot r _ _ _ _ _ => some r
  | _ => none

/-- All steps of a timeline carry a (non-negative integer) duration. -/
def validB (tl : List RawStep) : Bool :=
  tl.all (fun st => st.duration.isSome)

/-- The invariant of the claim, as an executable check: the two mode flags
are consistent, and while Running or Paused the index is valid and
`remaining` is a defined number within `[0, duration]` of the current
step. -/
def invB (s : EngineState) : Bool :=
  (!(s.isRunning && s.isPaused)) &&
  (!(s.isRunning || s.isPaused) ||
    (decide (s.index < s.timeline.length) &&
     (match (stepAt s.timeline s.index).duration, s.remaining with
      | some d, some r => decide (r ≤ d)
      | _, _ => false)))

/-- The remaining seconds `startActivity` assigns on entry to the current
step: `duration - (subtractOne ? 1 : 0)` (the `Math.max(0, ·)` is the
truncated subtraction), `none` when the duration is `undefined`. -/
def entryRem (b : Bool) (s : EngineState) : Option Nat :=
  (stepAt s.timeline s.index).duration.map (fun d => d - (if b then 1 else 0))

/-- Sum of the step durations of a timeline (`undefined` counts 0; the
claims using this assume all durations present). -/
def sumDurB (tl : List RawStep) : Nat :=
  tl.foldr (fun st a => st.duration.getD 0 + a) 0

/-- Tick budget of a timeline suffix: each step costs at most its duration
plus one advancing tick. -/
def costB (tl : List RawStep) : Nat :=
  tl.foldr (fun st a => st.duration.getD 0 + 1 + a) 0

/-- The terminal state `finish` produces: the index has run past the end,
the engine is no longer running and no tick is scheduled. -/
def finishedB (s : EngineState) : Bool :=
  decide (s.timeline.length ≤ s.index) && !s.isRunning && !s.intervalActive

/-- Concrete Running state used to witness `C2_cue_per_step`: entering the
first (10-second, non-last) step of a two-step timeline. -/
def c2WitnessState : EngineState :=
  { initState with
      timeline := [⟨some "a", some 10, none, none⟩,
                   ⟨some "b", some 4, none, none⟩],
      isRunning := true }

/-- The head of the list (if any) fails the predicate. -/
def headNot (p : Char → Bool) : List Char → Prop
  | [] => True
  | c :: _ => p c = false

/-- The suffix a name `w` contributes to a canonical activity line: empty
for the unnamed form, otherwise a separating space followed by the name. -/
def nameSfx (w : List Char) : List Char := if w = [] then [] else ' ' :: w

end IntervalTimer

namespace IntervalTimer

/-! ## Claims C3, C4, C9, C1: direct evaluations and small laws -/

/-- Claim C3: the claim states that a line matching neither pattern is
silently dropped and that all-unparseable input yields an empty plan and
timeline.  The code's intent (the trailing `.filter(Boolean)`) agrees, but
the spread `{type:"activity", ...null}` produces a truthy degenerate node,
so the line is kept: `parseWorkout "hello"` is a one-node plan and its
flattened timeline has length 1, not 0. -/
theorem C3_unparseable_line_kept :
    parseWorkout "hello" = [PlanNode.activity none] ∧
    flattenWorkout (parseWorkout "hello") = [⟨none, none, none, none⟩] ∧
    (flattenWorkout (parseWorkout "hello")).length ≠ 0 := by
  refine ⟨?_, ?_, ?_⟩ <;> decide

/-- Claim C4 counterexample: `start` assigns the freshly flattened (empty)
timeline to the stored one *before* the emptiness check, so a state whose
stored timeline is non-empty has it overwritten by a `start` on blank
input — not all `TimerState` fields are unchanged. -/
theorem C4_start_overwrites_timeline_cex :
    ({ initState with timeline := [⟨some "a", some 4, none, none⟩] } :
        EngineState).timeline ≠ [] ∧
    (start "" { initState with
        timeline := [⟨some "a", some 4, none, none⟩] }).1.timeline = [] ∧
    (start "" { initState with
        timeline := [⟨some "a", some 4, none, none⟩] }).2 = [] := by
  refine ⟨?_, ?_, ?_⟩ <;> decide

/-- Claim C4 (amended): on an input whose parsed-and-flattened timeline is
empty, `start` emits no events and changes no field of the state except
the stored timeline, which it overwrites with the new empty timeline. -/
theorem C4_empty_start_amended (text : String) (s : EngineState)
    (h : flattenWorkout (parseWorkout text) = []) :
    start text s = ({ s with timeline := [] }, []) := by
  simp [start, h]

/-- Witness for `C4_empty_start_amended` at a concrete state and input. -/
theorem C4_empty_start_amended_witness :
    flattenWorkout (parseWorkout "") = [] ∧
    start "" { initState with timeline := [⟨some "a", some 4, none, none⟩] } =
      ({ initState with timeline := [] }, []) :=
  ⟨by decide, C4_empty_start_amended ""
    { initState with timeline := [⟨some "a", some 4, none, none⟩] } (by decide)⟩

/-- Claim C9 counterexample: `stop` does not reset the `TimerState`.  After
two seconds of a 4-second run, `stop` leaves `remaining = 2`,
`elapsed = 2` and the stored timeline in place, while the claim's reset
would make the remaining and elapsed fields 0. -/
theorem C9_stop_keeps_fields_cex :
    (stop (runSeconds 2 (start "4s a" initState).1).1).1.remaining = some 2 ∧
    (stop (runSeconds 2 (start "4s a" initState).1).1).1.elapsed = 2 ∧
    (stop (runSeconds 2 (start "4s a" initState).1).1).1.timeline ≠ [] ∧
    (some 2 : Option Nat) ≠ some 0 := by
  refine ⟨?_, ?_, ?_, ?_⟩ <;> decide

/-- Claim C9 (amended): `stop` is allowed from any state; it cancels both
pending timers, moves the flags to Idle, and emits the reset display
(clock `00:00`, activity `ready`, elapsed `0:00`); the numeric fields and
the stored timeline are left unchanged and are only reset by the next
`start`. -/
theorem C9_stop_amended (s : EngineState) :
    (stop s).1.intervalActive = false ∧
    (stop s).1.cueDelay = none ∧
    (stop s).1.isRunning = false ∧
    (stop s).1.isPaused = false ∧
    (stop s).1.remaining = s.remaining ∧
    (stop s).1.elapsed = s.elapsed ∧
    (stop s).1.index = s.index ∧
    (stop s).1.timeline = s.timeline ∧
    (stop s).2 = [Event.stopDisplay "00:00" "ready" "" "0:00" "0:00"] := by
  refine ⟨rfl, rfl, rfl, rfl, rfl, rfl, rfl, rfl, rfl⟩

/-- Claim C1 counterexample: a reachable Running state in which pausing and
resuming with no tick in between fires a duplicate pre-end cue.  On the
timeline of `"4s a\n5s b"`, the cue for step 0 fires during the first
second (the scheduled timeout elapses), leaving `remaining = 3`; in the
uninterrupted run exactly one cue fires for step 0, but pausing at that
moment and resuming fires the cue for step 0 again, for a total of 2. -/
theorem C1_duplicate_cue_cex :
    cuesAt 0 (runSeconds 12 (start "4s a\n5s b" initState).1).2 = 1 ∧
    cuesAt 0
      ((second (start "4s a\n5s b" initState).1).2 ++
        (pause (second (start "4s a\n5s b" initState).1).1).2 ++
        (resume (pause (second (start "4s a\n5s b" initState).1).1).1).2 ++
        (runSeconds 12
          (resume (pause (second (start "4s a\n5s b" initState).1).1).1).1).2) =
      2 := by
  refine ⟨?_, ?_⟩ <;> decide

/-- Claim C1 (amended): pausing then resuming with no tick in between
leaves `remaining` and `elapsed` unchanged and `pause` emits nothing;
`resume` re-derives the cue schedule from the current `remaining` alone,
so the pair fires no cue — except in the single case `remaining = 3` on a
non-last step, where `resume` immediately (re-)fires the pre-end cue even
when it has already fired before the pause. -/
theorem C1_pause_resume_amended (s : EngineState) (h : s.isRunning = true) :
    (resume (pause s).1).1.remaining = s.remaining ∧
    (resume (pause s).1).1.elapsed = s.elapsed ∧
    (pause s).2 = [] ∧
    (resume (pause s).1).2 =
      (if s.index < s.timeline.length - 1 ∧ s.remaining = some 3
       then [Event.cue s.index] else []) := by
  refine ⟨?_, ?_, rfl, ?_⟩ <;>
  · by_cases hi : s.index < s.timeline.length - 1
    · cases hr : s.remaining with
      | none => simp [pause, resume, hi, hr]
      | some r =>
        rcases Nat.lt_trichotomy r 3 with h3 | h3 | h3
        · have h4 : ¬ 3 < r := by omega
          have h5 : r ≠ 3 := by omega
          simp [pause, resume, hi, hr, h4, h5]
        · subst h3
          simp [pause, resume, hi, hr]
        · have h5 : r ≠ 3 := by omega
          simp [pause, resume, hi, hr, h3, h5]
    · simp [pause, resume, hi]

/-- Witness for `C1_pause_resume_amended`: the running state one second
into `"4s a\n5s b"` (where the cue has just fired and `remaining = 3`). -/
theorem C1_pause_resume_amended_witness :
    (second (start "4s a\n5s b" initState).1).1.isRunning = true ∧
    ((resume (pause (second (start "4s a\n5s b" initState).1).1).1).1.remaining =
        (second (start "4s a\n5s b" initState).1).1.remaining ∧
      (resume (pause (second (start "4s a\n5s b" initState).1).1).1).1.elapsed =
        (second (start "4s a\n5s b" initState).1).1.elapsed ∧
      (pause (second (start "4s a\n5s b" initState).1).1).2 = [] ∧
      (resume (pause (second (start "4s a\n5s b" initState).1).1).1).2 =
        (if (second (start "4s a\n5s b" initState).1).1.index <
              (second (start "4s a\n5s b" initState).1).1.timeline.length - 1 ∧
            (second (start "4s a\n5s b" initState).1).1.remaining = some 3
         then [Event.cue (second (start "4s a\n5s b" initState).1).1.index]
         else [])) :=
  ⟨by decide, C1_pause_resume_amended _ (by decide)⟩

end IntervalTimer

namespace IntervalTimer

/-! ## Claim C5: the flattener -/

theorem flattenWorkout_foldl_eq (l : List PlanNode) :
    ∀ acc : List RawStep,
      l.foldl
        (fun timeline block =>
          match block with
          | .activity a =>
            timeline ++ [⟨a.map Activity.name, a.map Activity.duration, none, none⟩]
          | .set rpt steps => timeline ++ setExpansion rpt steps)
        acc = acc ++ (l.map nodeSteps).flatten := by
  induction l with
  | nil => intro acc; simp
  | cons b rest ih =>
    intro acc
    cases b with
    | activity a => simp [ih, nodeSteps]
    | set rpt steps => simp [ih, nodeSteps]

theorem setExpansion_eq_groups (rpt : Nat) (steps : List Activity) :
    setExpansion rpt steps =
      ((List.range rpt).map (fun r0 => groupSpec rpt steps (r0 + 1))).flatten := by
  simp [setExpansion, groupSpec]

theorem length_flatten_map_const {α β : Type} (f : α → List β) (k : Nat)
    (hf : ∀ a, (f a).length = k) :
    ∀ l : List α, ((l.map f).flatten).length = l.length * k := by
  intro l
  induction l with
  | nil => simp
  | cons a rest ih => simp [ih, hf, Nat.succ_mul]; omega

theorem length_setExpansion (rpt : Nat) (steps : List Activity) :
    (setExpansion rpt steps).length = rpt * steps.length := by
  unfold setExpansion
  rw [length_flatten_map_const _ steps.length (fun r0 => by simp)]
  simp

/-- Claim C5: `flattenWorkout` agrees with the spec's description — one
unannotated step per `Activity` node and, per `Set` node, the
repetition-major groups `1..R` each annotating its steps with
`interval = r, intervalTotal = R` — and its length is the number of plain
activities plus the sum over sets of `R * k`. -/
theorem C5_flatten_refines_spec :
    (∀ plan, flattenWorkout plan = flattenSpec plan) ∧
    (∀ plan, (flattenWorkout plan).length = planLenSpec plan) := by
  have hflat : ∀ plan, flattenWorkout plan = flattenSpec plan := by
    intro plan
    rw [flattenWorkout, flattenWorkout_foldl_eq plan [], List.nil_append]
    unfold flattenSpec
    congr 1
  refine ⟨hflat, ?_⟩
  intro plan
  induction plan with
  | nil => rfl
  | cons b rest ih =>
    have hb : flattenWorkout (b :: rest) = nodeSteps b ++ flattenWorkout rest := by
      rw [flattenWorkout, flattenWorkout, flattenWorkout_foldl_eq,
        flattenWorkout_foldl_eq]
      simp
    rw [hb]
    cases b with
    | activity a =>
      simp [nodeSteps, planLenSpec, ih]
      try omega
    | set rpt steps =>
      simp [nodeSteps, planLenSpec, ih, length_setExpansion]

/-! ## Claim C6: first snapshot after advancing -/

/-- Claim C6: whenever `next` advances to a step of duration `d > 0`, the
first event it emits is a progress snapshot showing
`remaining = d - 1`, never the full duration `d`. -/
theorem C6_first_snapshot (s : EngineState) (d : Nat)
    (hlen : s.index + 1 < s.timeline.length)
    (hd : (stepAt s.timeline (s.index + 1)).duration = some d)
    (hpos : 0 < d) :
    ((next s).2.head?.bind snapRemaining?) = some (some (d - 1)) ∧ d - 1 ≠ d := by
  refine ⟨?_, by omega⟩
  have hnge : ¬ s.index + 1 ≥ s.timeline.length := by omega
  simp only [next, hnge, if_false, startActivity, hd]
  by_cases h1 : s.index + 1 < s.timeline.length - 1
  · simp only [h1, if_true]
    by_cases h2 : 3 < d - 1
    · simp [h2, updateUI, snapRemaining?]
    · by_cases h3 : d - 1 = 3
      · simp [h2, h3, updateUI, snapRemaining?]
      · simp [h2, h3, updateUI, snapRemaining?]
  · simp [h1, updateUI, snapRemaining?]

/-- Witness for `C6_first_snapshot`: advancing into the 5-second step of
`"4s a\n5s b"` first shows `remaining = 4`. -/
theorem C6_first_snapshot_witness :
    (start "4s a\n5s b" initState).1.index + 1 <
        (start "4s a\n5s b" initState).1.timeline.length ∧
    (stepAt (start "4s a\n5s b" initState).1.timeline
        ((start "4s a\n5s b" initState).1.index + 1)).duration = some 5 ∧
    0 < 5 ∧
    (((next (start "4s a\n5s b" initState).1).2.head?.bind snapRemaining?) =
        some (some (5 - 1)) ∧ 5 - 1 ≠ 5) :=
  ⟨by decide, by decide, by decide,
    C6_first_snapshot _ 5 (by decide) (by decide) (by decide)⟩

end IntervalTimer

namespace IntervalTimer

/-! ## Claim C8: the state invariant -/

theorem validB_stepAt :
    ∀ (tl : List RawStep) (i : Nat), validB tl = true → i < tl.length →
      ∃ d, (stepAt tl i).duration = some d := by
  intro tl
  induction tl with
  | nil => intro i _ hi; simp at hi
  | cons st rest ih =>
    intro i hv hi
    simp only [validB, List.all_cons, Bool.and_eq_true] at hv
    cases i with
    | zero =>
      cases hd : st.duration with
      | none => rw [hd] at hv; simp at hv
      | some d => exact ⟨d, by simp [stepAt, hd]⟩
    | succ j =>
      have := ih j hv.2 (by simpa using hi)
      simpa [stepAt] using this

/-- Full characterization of `startActivity`: the state keeps everything
except `remaining` (set to `entryRem`), `intervalActive` (true) and
`cueDelay` (the schedule: `remaining - 3` on a non-last step with
`remaining > 3`); the events are the snapshot followed by an immediate
cue exactly on a non-last step with `remaining = 3`. -/
theorem startActivity_eq (b : Bool) (s : EngineState) :
    startActivity b s =
      ({ s with intervalActive := true,
                remaining := entryRem b s,
                cueDelay :=
                  (match entryRem b s with
                   | some r =>
                     if s.index < s.timeline.length - 1 ∧ r > 3 then
                       some (r - 3)
                     else none
                   | none => none) },
        updateUI { s with remaining := entryRem b s } ::
          (match entryRem b s with
           | some r =>
             if s.index < s.timeline.length - 1 ∧ r = 3 then [Event.cue s.index]
             else []
           | none => [])) := by
  have hui : updateUI { s with intervalActive := false,
                               cueDelay := none,
                               remaining := entryRem b s } =
      updateUI { s with remaining := entryRem b s } := rfl
  by_cases h1 : s.index < s.timeline.length - 1
  · cases hdur : (stepAt s.timeline s.index).duration with
    | none => simp [startActivity, entryRem, hdur, h1] at hui ⊢; exact hui
    | some d =>
      by_cases h2 : d - (if b then 1 else 0) > 3
      · have h3 : ¬ d - (if b then 1 else 0) = 3 := by omega
        simp [startActivity, entryRem, hdur, h1, h2, h3] at hui ⊢
        exact hui
      · by_cases h3 : d - (if b then 1 else 0) = 3
        · simp [startActivity, entryRem, hdur, h1, h2, h3] at hui ⊢
          exact hui
        · simp [startActivity, entryRem, hdur, h1, h2, h3] at hui ⊢
          exact hui
  · cases hdur : (stepAt s.timeline s.index).duration with
    | none => simp [startActivity, entryRem, hdur, h1] at hui ⊢; exact hui
    | some d => simp [startActivity, entryRem, hdur, h1] at hui ⊢; exact hui

theorem startActivity_inv (b : Bool) (s : EngineState)
    (hrun : s.isRunning = true) (hp : s.isPaused = false)
    (hi : s.index < s.timeline.length) (hv : validB s.timeline = true) :
    invB (startActivity b s).1 = true := by
  obtain ⟨d, hd⟩ := validB_stepAt s.timeline s.index hv hi
  rw [startActivity_eq]
  simp [invB, entryRem, hrun, hp, hi, hd, Nat.sub_le]

theorem pause_inv (s : EngineState) (hinv : invB s = true)
    (hrun : s.isRunning = true) : invB (pause s).1 = true := by
  simp only [invB, hrun, Bool.true_and, Bool.true_or, Bool.not_true,
    Bool.false_or, Bool.and_eq_true] at hinv
  simp [pause, invB]
  rcases hinv with ⟨_, h2⟩
  simpa using h2

theorem resume_fields (s : EngineState) :
    (resume s).1.timeline = s.timeline ∧ (resume s).1.index = s.index ∧
    (resume s).1.remaining = s.remaining ∧ (resume s).1.elapsed = s.elapsed ∧
    (resume s).1.isRunning = true ∧ (resume s).1.isPaused = false := by
  by_cases h1 : s.index < s.timeline.length - 1
  · cases hr : s.remaining with
    | none => simp [resume, h1, hr]
    | some r =>
      by_cases h2 : r > 3
      · simp [resume, h1, hr, h2]
      · by_cases h3 : r = 3 <;> simp [resume, h1, hr, h2, h3]
  · simp [resume, h1]

theorem resume_inv (s : EngineState) (hinv : invB s = true)
    (hpause : s.isPaused = true) : invB (resume s).1 = true := by
  simp only [invB, hpause, Bool.or_true, Bool.not_true, Bool.false_or,
    Bool.and_eq_true] at hinv
  obtain ⟨ht, hi, hr, he, hrn, hpa⟩ := resume_fields s
  simp only [invB, ht, hi, hr, hrn, hpa]
  simpa using hinv.2

theorem next_inv (s : EngineState) (hinv : invB s = true)
    (hrun : s.isRunning = true) (hv : validB s.timeline = true) :
    invB (next s).1 = true := by
  have hp : s.isPaused = false := by
    simp only [invB, hrun, Bool.and_eq_true, Bool.not_eq_true',
      Bool.true_and] at hinv
    simpa using hinv.1
  unfold next
  by_cases hend : s.index + 1 ≥ s.timeline.length
  · simp [hend, finish, invB, hp]
  · simp only [hend, if_false]
    exact startActivity_inv true { s with index := s.index + 1 } hrun hp
      (by simpa using Nat.lt_of_not_le (by simpa using hend)) (by simpa using hv)

theorem tick_inv (s : EngineState) (hinv : invB s = true)
    (hrun : s.isRunning = true) (hv : validB s.timeline = true) :
    invB (tick s).1 = true := by
  have hcomp := hinv
  simp only [invB, hrun, Bool.true_and, Bool.true_or, Bool.not_true,
    Bool.false_or, Bool.and_eq_true] at hcomp
  rcases hcomp with ⟨hflag, hbound⟩
  cases hr : s.remaining with
  | none => rw [hr] at hbound; cases hdur : (stepAt s.timeline s.index).duration <;>
      rw [hdur] at hbound <;> simp at hbound
  | some r =>
    cases r with
    | zero => simpa [tick, hr] using next_inv s hinv hrun hv
    | succ k =>
      cases hdur : (stepAt s.timeline s.index).duration with
      | none => rw [hr, hdur] at hbound; simp at hbound
      | some d =>
        rw [hr, hdur] at hbound
        simp only [decide_eq_true_eq, Bool.and_eq_true] at hbound
        simp [tick, hr, invB, hrun, hdur, hbound.1]
        constructor
        · simpa using hflag
        · omega

theorem start_inv (text : String) (s : EngineState)
    (hne : flattenWorkout (parseWorkout text) ≠ [])
    (hv : validB (flattenWorkout (parseWorkout text)) = true) :
    invB (start text s).1 = true := by
  unfold start
  have hlen : ¬ (flattenWorkout (parseWorkout text)).length = 0 := by
    simpa [List.length_eq_zero] using hne
  simp only [hlen, if_false]
  exact startActivity_inv false _ rfl rfl
    (by simpa using Nat.pos_of_ne_zero hlen) (by simpa using hv)

/-- Claim C8 (amended): the invariant — consistent mode flags, a valid
`currentIndex` and `remaining ∈ [0, duration]` while Running or Paused —
is established by any `start` whose parsed-and-flattened timeline is
non-empty and valid, and preserved by `tick` and `advanceStep` while
Running (on a valid timeline), by `pause` from Running and by `resume`
from Paused.  (A `start` whose new timeline is empty while Running breaks
it; see the counterexample.) -/
theorem C8_invariant_amended :
    (∀ (text : String) (s : EngineState),
      flattenWorkout (parseWorkout text) ≠ [] →
      validB (flattenWorkout (parseWorkout text)) = true →
      invB (start text s).1 = true) ∧
    (∀ s : EngineState, invB s = true → s.isRunning = true →
      validB s.timeline = true → invB (tick s).1 = true) ∧
    (∀ s : EngineState, invB s = true → s.isRunning = true →
      validB s.timeline = true → invB (next s).1 = true) ∧
    (∀ s : EngineState, invB s = true → s.isRunning = true →
      invB (pause s).1 = true) ∧
    (∀ s : EngineState, invB s = true → s.isPaused = true →
      invB (resume s).1 = true) :=
  ⟨start_inv, fun s h1 h2 h3 => tick_inv s h1 h2 h3,
    fun s h1 h2 h3 => next_inv s h1 h2 h3,
    fun s h1 h2 => pause_inv s h1 h2, fun s h1 h2 => resume_inv s h1 h2⟩

/-- Claim C8 counterexample: from the Running state of `start "4s a"`
(which satisfies the invariant), a further `start` on blank input — whose
flattened timeline is empty, hence vacuously all-valid — empties the
stored timeline while leaving the engine Running, so `currentIndex = 0`
is no longer a valid index and the invariant fails. -/
theorem C8_invariant_cex :
    invB (start "4s a" initState).1 = true ∧
    validB (flattenWorkout (parseWorkout "")) = true ∧
    (start "" (start "4s a" initState).1).1.isRunning = true ∧
    (start "" (start "4s a" initState).1).1.timeline = [] ∧
    invB (start "" (start "4s a" initState).1).1 = false := by
  refine ⟨?_, ?_, ?_, ?_, ?_⟩ <;> decide

/-- Witness for `C8_invariant_amended`: one second into `"4s a\n5s b"`,
`tick` preserves the invariant. -/
theorem C8_invariant_amended_witness :
    invB (second (start "4s a\n5s b" initState).1).1 = true ∧
    (second (start "4s a\n5s b" initState).1).1.isRunning = true ∧
    validB (second (start "4s a\n5s b" initState).1).1.timeline = true ∧
    invB (tick (second (start "4s a\n5s b" initState).1).1).1 = true :=
  ⟨by decide, by decide, by decide,
    C8_invariant_amended.2.1 _ (by decide) (by decide) (by decide)⟩

end IntervalTimer

namespace IntervalTimer

/-! ## Claim C10: termination of an uninterrupted run -/

theorem costB_eq (l : List RawStep) : costB l = sumDurB l + l.length := by
  induction l with
  | nil => rfl
  | cons st rest ih => simp [costB, sumDurB] at *; omega

theorem runTicks_add (a b : Nat) (s : EngineState) :
    runTicks (a + b) s = runTicks b (runTicks a s) := by
  induction a generalizing s with
  | zero => simp [runTicks]
  | succ k ih =>
    rw [Nat.succ_add]
    show runTicks (k + b) (tick s).1 = _
    rw [ih]
    rfl

theorem runTicks_countdown (r : Nat) (tl : List RawStep) (i e : Nat)
    (ia : Bool) (c : Option Nat) (ru pa : Bool) :
    runTicks r ⟨tl, i, some r, e, ia, c, ru, pa⟩ =
      ⟨tl, i, some 0, e + r, ia, c, ru, pa⟩ := by
  induction r generalizing e with
  | zero => rfl
  | succ k ih =>
    show runTicks k (tick ⟨tl, i, some (k + 1), e, ia, c, ru, pa⟩).1 = _
    have ht : (tick ⟨tl, i, some (k + 1), e, ia, c, ru, pa⟩).1 =
        ⟨tl, i, some k, e + 1, ia, c, ru, pa⟩ := rfl
    rw [ht, ih]
    have : e + 1 + k = e + (k + 1) := by omega
    rw [this]

theorem drop_stepAt_cons :
    ∀ (tl : List RawStep) (i : Nat), i < tl.length →
      tl.drop i = stepAt tl i :: tl.drop (i + 1) := by
  intro tl
  induction tl with
  | nil => intro i h; simp at h
  | cons st rest ih =>
    intro i h
    cases i with
    | zero => simp [stepAt]
    | succ j =>
      have := ih j (by simpa using h)
      simpa [stepAt] using this

theorem ticksToFinish :
    ∀ (m : Nat) (tl : List RawStep) (i r e : Nat) (ia : Bool)
      (c : Option Nat) (ru pa : Bool),
      validB tl = true → i < tl.length → tl.length - i ≤ m + 1 →
      ∃ n, n ≤ r + 1 + costB (tl.drop (i + 1)) ∧
        finishedB (runTicks n ⟨tl, i, some r, e, ia, c, ru, pa⟩) = true := by
  intro m
  induction m with
  | zero =>
    intro tl i r e ia c ru pa hv hi hlen
    refine ⟨r + 1, by omega, ?_⟩
    rw [runTicks_add r 1, runTicks_countdown]
    have hend : tl.length ≤ i + 1 := by omega
    show finishedB (tick ⟨tl, i, some 0, e + r, ia, c, ru, pa⟩).1 = true
    simp [tick, next, hend, finish, finishedB]
  | succ m ih =>
    intro tl i r e ia c ru pa hv hi hlen
    by_cases hend : tl.length ≤ i + 1
    · refine ⟨r + 1, by omega, ?_⟩
      rw [runTicks_add r 1, runTicks_countdown]
      show finishedB (tick ⟨tl, i, some 0, e + r, ia, c, ru, pa⟩).1 = true
      simp [tick, next, hend, finish, finishedB]
    · obtain ⟨d, hd⟩ := validB_stepAt tl (i + 1) hv (by omega)
      have hstep : (tick ⟨tl, i, some 0, e + r, ia, c, ru, pa⟩).1 =
          (startActivity true
            ⟨tl, i + 1, some 0, e + r, ia, c, ru, pa⟩).1 := by
        simp [tick, next, hend]
      have hsa : (startActivity true
          ⟨tl, i + 1, some 0, e + r, ia, c, ru, pa⟩).1 =
          ⟨tl, i + 1, some (d - 1), e + r, true,
            (if i + 1 < tl.length - 1 ∧ d - 1 > 3 then some (d - 1 - 3)
             else none), ru, pa⟩ := by
        rw [startActivity_eq]
        simp [entryRem, stepAt] at hd ⊢
        simp [hd]
      obtain ⟨n', hn', hfin⟩ :=
        ih tl (i + 1) (d - 1) (e + r) true
          (if i + 1 < tl.length - 1 ∧ d - 1 > 3 then some (d - 1 - 3) else none)
          ru pa hv (by omega) (by omega)
      refine ⟨r + 1 + n', ?_, ?_⟩
      · have e2 : i + 1 + 1 = i + 2 := by omega
        rw [e2] at hn'
        have hdrop : tl.drop (i + 1) = stepAt tl (i + 1) :: tl.drop (i + 2) :=
          drop_stepAt_cons tl (i + 1) (by omega)
        have hcost : costB (tl.drop (i + 1)) =
            d + 1 + costB (tl.drop (i + 2)) := by
          rw [hdrop]
          simp [costB, hd]
        omega
      · rw [runTicks_add (r + 1) n', runTicks_add r 1, runTicks_countdown]
        have h1 : runTicks 1 (⟨tl, i, some 0, e + r, ia, c, ru, pa⟩ :
            EngineState) = (tick ⟨tl, i, some 0, e + r, ia, c, ru, pa⟩).1 := rfl
        rw [h1, hstep, hsa]
        exact hfin

/-- Claim C10: (a) a run started on a non-empty all-valid timeline and
never paused or stopped reaches the Finished configuration within
`sum of durations + number of steps + 1` tick invocations; (b) while
Running under the invariant, each tick either strictly increases the index
or strictly decreases `remaining`. -/
theorem C10_termination :
    (∀ (text : String) (s : EngineState),
      flattenWorkout (parseWorkout text) ≠ [] →
      validB (flattenWorkout (parseWorkout text)) = true →
      ∃ n, n ≤ sumDurB (flattenWorkout (parseWorkout text)) +
              (flattenWorkout (parseWorkout text)).length + 1 ∧
        finishedB (runTicks n (start text s).1) = true) ∧
    (∀ s : EngineState, invB s = true → s.isRunning = true →
      (tick s).1.index = s.index + 1 ∨
      (∃ r, s.remaining = some (r + 1) ∧ (tick s).1.remaining = some r)) := by
  constructor
  · intro text s hne hv
    set tl := flattenWorkout (parseWorkout text) with htl
    have hlen0 : tl.length ≠ 0 := by simpa [List.length_eq_zero] using hne
    have hpos : 0 < tl.length := Nat.pos_of_ne_zero hlen0
    obtain ⟨d, hd⟩ := validB_stepAt tl 0 hv hpos
    have hstart : (start text s).1 =
        ⟨tl, 0, some d, 0, true,
          (if 0 < tl.length - 1 ∧ d > 3 then some (d - 3) else none),
          true, false⟩ := by
      unfold start
      rw [← htl]
      simp only [hlen0, if_false]
      rw [startActivity_eq]
      simp [entryRem, hd]
    obtain ⟨n, hn, hfin⟩ :=
      ticksToFinish tl.length tl 0 d 0 true
        (if 0 < tl.length - 1 ∧ d > 3 then some (d - 3) else none)
        true false hv hpos (by omega)
    refine ⟨n, ?_, by rw [hstart]; exact hfin⟩
    have e1 : (0 : Nat) + 1 = 1 := rfl
    rw [e1] at hn
    have hdrop : tl.drop 0 = stepAt tl 0 :: tl.drop 1 :=
      drop_stepAt_cons tl 0 hpos
    have hsum : sumDurB tl = d + sumDurB (tl.drop 1) := by
      have h0 : tl.drop 0 = tl := by simp
      rw [← h0, hdrop]
      simp [sumDurB, hd]
    have hcost := costB_eq (tl.drop 1)
    have hlen1 : (tl.drop 1).length = tl.length - 1 := by simp
    omega
  · intro s hinv hrun
    have hcomp := hinv
    simp only [invB, hrun, Bool.true_and, Bool.true_or, Bool.not_true,
      Bool.false_or, Bool.and_eq_true] at hcomp
    cases hr : s.remaining with
    | none =>
      rcases hcomp with ⟨_, hb⟩
      rw [hr] at hb
      cases hdur : (stepAt s.timeline s.index).duration <;>
        rw [hdur] at hb <;> simp at hb
    | some r =>
      cases r with
      | zero =>
        left
        have ht : (tick s).1 = (next s).1 := by simp [tick, hr]
        rw [ht]
        unfold next
        by_cases hend : s.index + 1 ≥ s.timeline.length
        · simp [hend, finish]
        · simp only [hend, if_false]
          rw [startActivity_eq]
      | succ k =>
        right
        exact ⟨k, rfl, by simp [tick, hr]⟩

/-- Witness for `C10_termination` on the concrete run of `"2s a"`. -/
theorem C10_termination_witness :
    flattenWorkout (parseWorkout "2s a") ≠ [] ∧
    validB (flattenWorkout (parseWorkout "2s a")) = true ∧
    (∃ n, n ≤ sumDurB (flattenWorkout (parseWorkout "2s a")) +
            (flattenWorkout (parseWorkout "2s a")).length + 1 ∧
      finishedB (runTicks n (start "2s a" initState).1) = true) :=
  ⟨by decide, by decide, C10_termination.1 "2s a" initState (by decide) (by decide)⟩

end IntervalTimer

namespace IntervalTimer

/-! ## Claim C2: the pre-end cue fires exactly once per step -/

theorem runSeconds_succ (n : Nat) (s : EngineState) :
    runSeconds (n + 1) s =
      ((runSeconds n (second s).1).1,
        (second s).2 ++ (runSeconds n (second s).1).2) := rfl

theorem runSeconds_add (a b : Nat) (s : EngineState) :
    runSeconds (a + b) s =
      ((runSeconds b (runSeconds a s).1).1,
        (runSeconds a s).2 ++ (runSeconds b (runSeconds a s).1).2) := by
  induction a generalizing s with
  | zero => simp [runSeconds]
  | succ k ih =>
    rw [Nat.succ_add, runSeconds_succ, runSeconds_succ, ih]
    simp [List.append_assoc]

theorem cuesAt_nil (j : Nat) : cuesAt j [] = 0 := rfl

theorem cuesAt_append (j : Nat) (l1 l2 : List Event) :
    cuesAt j (l1 ++ l2) = cuesAt j l1 + cuesAt j l2 := by
  simp [cuesAt, List.count_append]

theorem cuesAt_cons_ne (j : Nat) (e : Event) (h : ∀ i, e ≠ Event.cue i)
    (rest : List Event) : cuesAt j (e :: rest) = cuesAt j rest := by
  simp [cuesAt, List.count_cons, beq_iff_eq]
  intro hh
  exact absurd hh (h j)

theorem cuesAt_cue_cons (j i : Nat) (rest : List Event) :
    cuesAt j (Event.cue i :: rest) =
      (if j = i then 1 else 0) + cuesAt j rest := by
  by_cases h : j = i
  · subst h; simp [cuesAt, List.count_cons]; omega
  · have : Event.cue i ≠ Event.cue j := by simp; omega
    simp [cuesAt, List.count_cons, beq_iff_eq, this, h]

/-- No-cue countdown: with no pending cue timeout, `k ≤ r` seconds just
tick down, emitting no cues. -/
theorem runSeconds_nocue :
    ∀ (k r : Nat), k ≤ r → ∀ (tl : List RawStep) (i e : Nat) (ru pa : Bool),
      (runSeconds k ⟨tl, i, some r, e, true, none, ru, pa⟩).1 =
        ⟨tl, i, some (r - k), e + k, true, none, ru, pa⟩ ∧
      ∀ j, cuesAt j (runSeconds k ⟨tl, i, some r, e, true, none, ru, pa⟩).2 = 0 := by
  intro k
  induction k with
  | zero =>
    intro r _ tl i e ru pa
    exact ⟨by simp [runSeconds], fun j => rfl⟩
  | succ k ih =>
    intro r hk tl i e ru pa
    obtain ⟨r', rfl⟩ : ∃ r', r = r' + 1 := ⟨r - 1, by omega⟩
    have hsec : second ⟨tl, i, some (r' + 1), e, true, none, ru, pa⟩ =
        (⟨tl, i, some r', e + 1, true, none, ru, pa⟩,
          [updateUI ⟨tl, i, some r', e + 1, true, none, ru, pa⟩, Event.pulse]) := by
      simp [second, tick]
    obtain ⟨ihst, ihcue⟩ := ih r' (by omega) tl i (e + 1) ru pa
    rw [runSeconds_succ, hsec]
    constructor
    · rw [ihst]
      have h1 : r' - k = r' + 1 - (k + 1) := by omega
      have h2 : e + 1 + k = e + (k + 1) := by omega
      rw [h1, h2]
    · intro j
      rw [cuesAt_append, cuesAt_cons_ne j _ (by intro i h; cases h),
        cuesAt_cons_ne j _ (by intro i h; cases h), cuesAt_nil, ihcue j]

/-- Cue countdown: a pending cue timeout of `c ≥ 1` seconds (with
`remaining = c + 3`, as the scheduler arranges) fires exactly once, at the
second its delay elapses, leaving `remaining = 3`. -/
theorem runSeconds_cue :
    ∀ (c : Nat), 1 ≤ c → ∀ (tl : List RawStep) (i e : Nat) (ru pa : Bool),
      (runSeconds c ⟨tl, i, some (c + 3), e, true, some c, ru, pa⟩).1 =
        ⟨tl, i, some 3, e + c, true, none, ru, pa⟩ ∧
      ∀ j, cuesAt j (runSeconds c ⟨tl, i, some (c + 3), e, true, some c, ru, pa⟩).2 =
        (if j = i then 1 else 0) := by
  intro c
  induction c with
  | zero => intro h; omega
  | succ c ih =>
    intro _ tl i e ru pa
    cases c with
    | zero =>
      have hsec : second ⟨tl, i, some 4, e, true, some 1, ru, pa⟩ =
          (⟨tl, i, some 3, e + 1, true, none, ru, pa⟩,
            [Event.cue i, updateUI ⟨tl, i, some 3, e + 1, true, none, ru, pa⟩,
              Event.pulse]) := by
        simp [second, tick]
      rw [runSeconds_succ, hsec]
      refine ⟨by simp [runSeconds], ?_⟩
      intro j
      rw [cuesAt_append, cuesAt_cue_cons,
        cuesAt_cons_ne j _ (by intro i h; cases h),
        cuesAt_cons_ne j _ (by intro i h; cases h), cuesAt_nil]
      simp [runSeconds, cuesAt_nil]
    | succ c' =>
      have hsec : second ⟨tl, i, some (c' + 1 + 1 + 3), e, true,
          some (c' + 1 + 1), ru, pa⟩ =
          (⟨tl, i, some (c' + 1 + 3), e + 1, true, some (c' + 1), ru, pa⟩,
            [updateUI ⟨tl, i, some (c' + 1 + 3), e + 1, true,
              some (c' + 1), ru, pa⟩, Event.pulse]) := by
        have hle : ¬ c' + 1 + 1 ≤ 1 := by omega
        simp [second, tick, hle]
      obtain ⟨ihst, ihcue⟩ := ih (by omega) tl i (e + 1) ru pa
      rw [runSeconds_succ, hsec]
      constructor
      · rw [ihst]
        have h2 : e + 1 + (c' + 1) = e + (c' + 1 + 1) := by omega
        rw [h2]
      · intro j
        rw [cuesAt_append, cuesAt_cons_ne j _ (by intro i h; cases h),
          cuesAt_cons_ne j _ (by intro i h; cases h), cuesAt_nil, ihcue j]
        try simp

/-- The advancing second: with `remaining = 0` and no pending cue, the
tick advances to step `i + 1` (or finishes); the only cue this second can
emit is the immediate cue of the *next* step's entry. -/
theorem second_advance (tl : List RawStep) (i e : Nat) (ru pa : Bool) :
    ((second ⟨tl, i, some 0, e, true, none, ru, pa⟩).1.index = i + 1) ∧
    (∀ j, j ≠ i + 1 →
      cuesAt j (second ⟨tl, i, some 0, e, true, none, ru, pa⟩).2 = 0) := by
  have h : second ⟨tl, i, some 0, e, true, none, ru, pa⟩ =
      next ⟨tl, i, some 0, e, true, none, ru, pa⟩ := by simp [second, tick]
  rw [h]
  unfold next
  by_cases hend : tl.length ≤ i + 1
  · rw [if_pos hend]
    refine ⟨rfl, ?_⟩
    intro j _
    rw [show (finish ⟨tl, i + 1, some 0, e, true, none, ru, pa⟩).2 =
      [Event.doneDisplay "🎉" "done"] from rfl]
    rw [cuesAt_cons_ne j _ (by intro i h; cases h), cuesAt_nil]
  · rw [if_neg hend]
    rw [startActivity_eq]
    refine ⟨rfl, ?_⟩
    intro j hj
    show cuesAt j (updateUI _ ::
      (match entryRem true ⟨tl, i + 1, some 0, e, true, none, ru, pa⟩ with
       | some r => if i + 1 < tl.length - 1 ∧ r = 3 then [Event.cue (i + 1)]
         else []
       | none => [])) = 0
    rw [cuesAt_cons_ne j _ (by intro i h; cases h)]
    cases hm : entryRem true ⟨tl, i + 1, some 0, e, true, none, ru, pa⟩ with
    | none => rfl
    | some r =>
      show cuesAt j
        (if i + 1 < tl.length - 1 ∧ r = 3 then [Event.cue (i + 1)] else []) = 0
      by_cases hc : i + 1 < tl.length - 1 ∧ r = 3
      · rw [if_pos hc, cuesAt_cue_cons, cuesAt_nil]
        simp [hj]
      · rw [if_neg hc]
        rfl

end IntervalTimer

namespace IntervalTimer

/-- A full step with no pending cue: `r` countdown seconds plus the
advancing second emit no cue for the current step, and leave the engine on
the next step. -/
theorem run_step_nocue (tl : List RawStep) (i r e : Nat) (ru pa : Bool) :
    cuesAt i (runSeconds (r + 1) ⟨tl, i, some r, e, true, none, ru, pa⟩).2 = 0 ∧
    (runSeconds (r + 1) ⟨tl, i, some r, e, true, none, ru, pa⟩).1.index =
      i + 1 := by
  obtain ⟨hst, hcue⟩ := runSeconds_nocue r r (Nat.le_refl r) tl i e ru pa
  rw [Nat.sub_self] at hst
  rw [runSeconds_add r 1, hst]
  have hone : ∀ s : EngineState, runSeconds 1 s = ((second s).1, (second s).2 ++ []) := by
    intro s; rfl
  rw [hone]
  obtain ⟨hidx, hnc⟩ := second_advance tl i (e + r) ru pa
  refine ⟨?_, hidx⟩
  rw [cuesAt_append, hcue i, cuesAt_append, cuesAt_nil,
    hnc i (by omega)]

/-- A full step with a pending cue of `c ≥ 1` seconds (`remaining = c+3`):
the cue fires exactly once during the countdown, and the engine ends on
the next step. -/
theorem run_step_cue (tl : List RawStep) (i c e : Nat) (ru pa : Bool)
    (hc : 1 ≤ c) :
    cuesAt i (runSeconds (c + 3 + 1)
      ⟨tl, i, some (c + 3), e, true, some c, ru, pa⟩).2 = 1 ∧
    (runSeconds (c + 3 + 1)
      ⟨tl, i, some (c + 3), e, true, some c, ru, pa⟩).1.index = i + 1 := by
  have hadd : c + 3 + 1 = c + (3 + 1) := by omega
  rw [hadd, runSeconds_add c (3 + 1)]
  obtain ⟨hst, hcue⟩ := runSeconds_cue c hc tl i e ru pa
  rw [hst]
  obtain ⟨hcue2, hidx2⟩ := run_step_nocue tl i 3 (e + c) ru pa
  refine ⟨?_, hidx2⟩
  rw [cuesAt_append, hcue i, hcue2]
  simp

/-- Claim C2: cue policy per step.  On entering a step via `startActivity`
with entry remaining `r` (the duration, minus one when continuing from a
previous step), (1) a cue timeout of `r - 3` seconds is pending iff the
step is not last and `r > 3`; (2) an immediate cue fires at entry iff the
step is not last and `r = 3`; (3) during the step's `r + 1` seconds the
pending cue fires exactly once iff scheduled; (4) hence the step fires
exactly one cue iff it is not last and `r ≥ 3`, and zero otherwise — in
particular the last step fires none regardless of duration; (5) after
those seconds the engine has advanced past the step. -/
theorem C2_cue_per_step (s : EngineState) (b : Bool) (d r : Nat)
    (hi : s.index < s.timeline.length)
    (hd : (stepAt s.timeline s.index).duration = some d)
    (hr : r = d - (if b then 1 else 0)) :
    ((startActivity b s).1.cueDelay =
      (if s.index < s.timeline.length - 1 ∧ r > 3 then some (r - 3)
       else none)) ∧
    (cuesAt s.index (startActivity b s).2 =
      (if s.index < s.timeline.length - 1 ∧ r = 3 then 1 else 0)) ∧
    (cuesAt s.index (runSeconds (r + 1) (startActivity b s).1).2 =
      (if s.index < s.timeline.length - 1 ∧ r > 3 then 1 else 0)) ∧
    (cuesAt s.index (startActivity b s).2 +
        cuesAt s.index (runSeconds (r + 1) (startActivity b s).1).2 =
      (if s.index < s.timeline.length - 1 ∧ 3 ≤ r then 1 else 0)) ∧
    ((runSeconds (r + 1) (startActivity b s).1).1.index = s.index + 1) := by
  have hrem : entryRem b s = some r := by
    simp [entryRem, hd, hr]
  rw [startActivity_eq, hrem]
  dsimp only
  by_cases hlast : s.index < s.timeline.length - 1
  · by_cases h3 : r > 3
    · have hne3 : ¬ (s.index < s.timeline.length - 1 ∧ r = 3) := by omega
      have hyes : s.index < s.timeline.length - 1 ∧ r > 3 := ⟨hlast, h3⟩
      have hF : s.index < s.timeline.length - 1 ∧ 3 ≤ r := by omega
      rw [if_pos hyes, if_neg hne3, if_neg hne3, if_pos hyes, if_pos hF]
      obtain ⟨c, rfl⟩ : ∃ c, r = c + 3 := ⟨r - 3, by omega⟩
      have hsub : c + 3 - 3 = c := by omega
      rw [hsub]
      have hc1 : 1 ≤ c := by omega
      obtain ⟨hcue, hidx⟩ :=
        run_step_cue s.timeline s.index c s.elapsed s.isRunning s.isPaused hc1
      refine ⟨rfl, ?_, hcue, ?_, hidx⟩
      · rw [cuesAt_cons_ne _ _ (by intro i h; cases h), cuesAt_nil]
      · rw [cuesAt_cons_ne _ _ (by intro i h; cases h), cuesAt_nil, hcue]
    · by_cases heq : r = 3
      · have hno : ¬ (s.index < s.timeline.length - 1 ∧ r > 3) := by omega
        have hyes : s.index < s.timeline.length - 1 ∧ r = 3 := ⟨hlast, heq⟩
        have hF : s.index < s.timeline.length - 1 ∧ 3 ≤ r := by omega
        rw [if_neg hno, if_pos hyes, if_pos hyes, if_neg hno, if_pos hF]
        obtain ⟨hcue, hidx⟩ :=
          run_step_nocue s.timeline s.index r s.elapsed s.isRunning s.isPaused
        refine ⟨rfl, ?_, hcue, ?_, hidx⟩
        · rw [cuesAt_cons_ne _ _ (by intro i h; cases h), cuesAt_cue_cons,
            cuesAt_nil]
          simp
        · rw [cuesAt_cons_ne _ _ (by intro i h; cases h), cuesAt_cue_cons,
            cuesAt_nil, hcue]
          simp
      · have hno : ¬ (s.index < s.timeline.length - 1 ∧ r > 3) := by omega
        have hno2 : ¬ (s.index < s.timeline.length - 1 ∧ r = 3) := by omega
        have hno3 : ¬ (s.index < s.timeline.length - 1 ∧ 3 ≤ r) := by omega
        rw [if_neg hno, if_neg hno2, if_neg hno2, if_neg hno, if_neg hno3]
        obtain ⟨hcue, hidx⟩ :=
          run_step_nocue s.timeline s.index r s.elapsed s.isRunning s.isPaused
        refine ⟨rfl, ?_, hcue, ?_, hidx⟩
        · rw [cuesAt_cons_ne _ _ (by intro i h; cases h), cuesAt_nil]
        · rw [cuesAt_cons_ne _ _ (by intro i h; cases h), cuesAt_nil, hcue]
  · have hno : ¬ (s.index < s.timeline.length - 1 ∧ r > 3) := by
      intro hcon; exact hlast hcon.1
    have hno2 : ¬ (s.index < s.timeline.length - 1 ∧ r = 3) := by
      intro hcon; exact hlast hcon.1
    have hno3 : ¬ (s.index < s.timeline.length - 1 ∧ 3 ≤ r) := by
      intro hcon; exact hlast hcon.1
    rw [if_neg hno, if_neg hno2, if_neg hno2, if_neg hno, if_neg hno3]
    obtain ⟨hcue, hidx⟩ :=
      run_step_nocue s.timeline s.index r s.elapsed s.isRunning s.isPaused
    refine ⟨rfl, ?_, hcue, ?_, hidx⟩
    · rw [cuesAt_cons_ne _ _ (by intro i h; cases h), cuesAt_nil]
    · rw [cuesAt_cons_ne _ _ (by intro i h; cases h), cuesAt_nil, hcue]

end IntervalTimer

namespace IntervalTimer

/-- Witness for `C2_cue_per_step` at the 10-second non-last step: a cue
timeout of 7 seconds is pending, no immediate cue, exactly one cue during
the step, and the engine then stands on step 1. -/
theorem C2_cue_per_step_witness :
    c2WitnessState.index < c2WitnessState.timeline.length ∧
    (stepAt c2WitnessState.timeline c2WitnessState.index).duration = some 10 ∧
    (10 : Nat) = 10 - (if false then 1 else 0) ∧
    (((startActivity false c2WitnessState).1.cueDelay =
      (if c2WitnessState.index < c2WitnessState.timeline.length - 1 ∧ 10 > 3
       then some (10 - 3) else none)) ∧
    (cuesAt c2WitnessState.index (startActivity false c2WitnessState).2 =
      (if c2WitnessState.index < c2WitnessState.timeline.length - 1 ∧ 10 = 3
       then 1 else 0)) ∧
    (cuesAt c2WitnessState.index
        (runSeconds (10 + 1) (startActivity false c2WitnessState).1).2 =
      (if c2WitnessState.index < c2WitnessState.timeline.length - 1 ∧ 10 > 3
       then 1 else 0)) ∧
    (cuesAt c2WitnessState.index (startActivity false c2WitnessState).2 +
        cuesAt c2WitnessState.index
          (runSeconds (10 + 1) (startActivity false c2WitnessState).1).2 =
      (if c2WitnessState.index < c2WitnessState.timeline.length - 1 ∧ 3 ≤ 10
       then 1 else 0)) ∧
    ((runSeconds (10 + 1) (startActivity false c2WitnessState).1).1.index =
      c2WitnessState.index + 1)) :=
  ⟨by decide, by decide, by decide,
    C2_cue_per_step c2WitnessState false 10 10 (by decide) (by decide)
      (by decide)⟩

end IntervalTimer

namespace IntervalTimer

/-! ## Claim C7: `parseActivity` — support lemmas

Character-class facts (the `/i` flag lowercases only basic latin), and
head/tail facts about the greedy runs of the matcher model. -/

theorem char_toNat_le_of_le {a b : Char} (h : a ≤ b) : a.toNat ≤ b.toNat := h

theorem toNat_ofNat_small (n : Nat) (h : n < 55296) : (Char.ofNat n).toNat = n := by
  have hv : n.isValidChar := Or.inl (by omega)
  rw [Char.ofNat, dif_pos hv]
  simp [Char.toNat, Char.ofNatAux, UInt32.toNat]

theorem toLower_cases (c l : Char) (h : c.toLower = l) :
    c = l ∨ (c.toNat + 32 = l.toNat ∧ 65 ≤ c.toNat ∧ c.toNat ≤ 90) := by
  simp only [Char.toLower] at h
  by_cases hc : 65 ≤ c.toNat ∧ c.toNat ≤ 90
  · right
    rw [if_pos ⟨hc.1, hc.2⟩] at h
    have h2 := congrArg Char.toNat h
    rw [toNat_ofNat_small (c.toNat + 32) (by omega)] at h2
    exact ⟨h2, hc⟩
  · left
    rw [if_neg (fun hcon => hc ⟨hcon.1, hcon.2⟩)] at h
    exact h

/-- A character whose lowercase form is one of the unit letters is neither
whitespace nor a digit. -/
theorem clean_of_toLower (c l : Char) (h : c.toLower = l)
    (hl : l = 'm' ∨ l = 'i' ∨ l = 'n' ∨ l = 's' ∨ l = 'e' ∨ l = 'c') :
    isWs c = false ∧ isDigitC c = false := by
  rcases toLower_cases c l h with rfl | ⟨h1, h2, h3⟩
  · rcases hl with rfl | rfl | rfl | rfl | rfl | rfl <;> exact ⟨by decide, by decide⟩
  · constructor
    · simp only [isWs, Bool.or_eq_false_iff, decide_eq_false_iff_not]
      refine ⟨⟨⟨?_, ?_⟩, ?_⟩, ?_⟩ <;> (rintro rfl; exact absurd h2 (by decide))
    · simp only [isDigitC, Bool.and_eq_false_iff, decide_eq_false_iff_not]
      right
      intro hle
      have h4 := char_toNat_le_of_le hle
      have h9 : ('9' : Char).toNat = 57 := by decide
      omega

theorem not_ws_of_digit (c : Char) (h : isDigitC c = true) : isWs c = false := by
  by_contra hc
  rw [Bool.not_eq_false] at hc
  simp only [isWs, Bool.or_eq_true, decide_eq_true_eq] at hc
  rcases hc with ((h1 | h1) | h1) | h1 <;> subst h1 <;>
    exact absurd h (by decide)

theorem headNot_append (p : Char → Bool) (a b : List Char) (ha : a ≠ [])
    (h : headNot p a) : headNot p (a ++ b) := by
  cases a with
  | nil => exact absurd rfl ha
  | cons c t => exact h

theorem dropWhile_headNot (p : Char → Bool) (l : List Char)
    (h : headNot p l) : l.dropWhile p = l := by
  cases l with
  | nil => rfl
  | cons c t =>
    have hc : p c = false := h
    simp [List.dropWhile_cons, hc]

theorem takeWhile_headNot (p : Char → Bool) (l : List Char)
    (h : headNot p l) : l.takeWhile p = [] := by
  cases l with
  | nil => rfl
  | cons c t =>
    have hc : p c = false := h
    simp [List.takeWhile_cons, hc]

theorem tw_append (p : Char → Bool) :
    ∀ (l1 l2 : List Char), (∀ c ∈ l1, p c = true) → headNot p l2 →
      (l1 ++ l2).takeWhile p = l1 ∧ (l1 ++ l2).dropWhile p = l2 := by
  intro l1
  induction l1 with
  | nil =>
    intro l2 _ h2
    exact ⟨takeWhile_headNot p l2 h2, dropWhile_headNot p l2 h2⟩
  | cons c t ih =>
    intro l2 h1 h2
    have hc : p c = true := h1 c (by simp)
    have iht := ih l2 (fun d hd => h1 d (by simp [hd])) h2
    simp [List.takeWhile_cons, List.dropWhile_cons, hc, iht.1, iht.2]

theorem trim_eq_self (l : List Char) (h1 : headNot isWs l)
    (h2 : headNot isWs l.reverse) : trimChars l = l := by
  unfold trimChars
  rw [dropWhile_headNot _ _ h1, dropWhile_headNot _ _ h2, List.reverse_reverse]

theorem map_toLower_one (u : List Char) (a : Char)
    (h : u.map Char.toLower = [a]) : ∃ c, u = [c] ∧ c.toLower = a := by
  cases u with
  | nil => simp at h
  | cons c t =>
    cases t with
    | nil => simp at h; exact ⟨c, rfl, h⟩
    | cons d t2 => simp at h

theorem map_toLower_three (u : List Char) (a b d : Char)
    (h : u.map Char.toLower = [a, b, d]) :
    ∃ c1 c2 c3, u = [c1, c2, c3] ∧ c1.toLower = a ∧ c2.toLower = b ∧
      c3.toLower = d := by
  cases u with
  | nil => simp at h
  | cons c1 t =>
    cases t with
    | nil => simp at h
    | cons c2 t2 =>
      cases t2 with
      | nil => simp at h
      | cons c3 t3 =>
        cases t3 with
        | nil =>
          simp at h
          exact ⟨c1, c2, c3, rfl, h.1, h.2.1, h.2.2⟩
        | cons c4 t4 => simp at h

end IntervalTimer

namespace IntervalTimer

theorem digitsPlus_cons (ds rest : List Char) (h1 : ds ≠ [])
    (h2 : ∀ c ∈ ds, isDigitC c = true) (h3 : headNot isDigitC rest) :
    ∃ t, digitsPlusSplits (ds ++ rest) = (ds, rest) :: t := by
  obtain ⟨htw, hdw⟩ := tw_append isDigitC ds rest h2 h3
  unfold digitsPlusSplits
  rw [htw, hdw]
  dsimp only
  obtain ⟨n, hn⟩ : ∃ n, ds.length = n + 1 := by
    cases ds with
    | nil => exact absurd rfl h1
    | cons c t => exact ⟨t.length, by simp⟩
  rw [hn, List.range_succ_eq_map, List.map_cons]
  refine ⟨List.map
    (fun j => (List.take (n + 1 - j) ds, List.drop (n + 1 - j) ds ++ rest))
    (List.map Nat.succ (List.range n)), ?_⟩
  congr 1
  rw [Nat.sub_zero, ← hn, List.take_length, List.drop_length,
    List.nil_append]

theorem digitsStar_cons (ds rest : List Char)
    (h2 : ∀ c ∈ ds, isDigitC c = true) (h3 : headNot isDigitC rest) :
    ∃ t, digitsStarSplits (ds ++ rest) = (ds, rest) :: t := by
  obtain ⟨htw, hdw⟩ := tw_append isDigitC ds rest h2 h3
  unfold digitsStarSplits
  rw [htw, hdw]
  dsimp only
  rw [List.range_succ_eq_map, List.map_cons]
  refine ⟨List.map
    (fun j => (List.take (ds.length - j) ds, List.drop (ds.length - j) ds ++ rest))
    (List.map Nat.succ (List.range ds.length)), ?_⟩
  congr 1
  rw [Nat.sub_zero, List.take_length, List.drop_length, List.nil_append]

theorem spacesStar_headNot (cs : List Char) (h : headNot isWs cs) :
    spacesStarSplits cs = [([], cs)] := by
  unfold spacesStarSplits
  rw [takeWhile_headNot _ _ h, dropWhile_headNot _ _ h]
  rfl

theorem digitsStar_headNot (cs : List Char) (h : headNot isDigitC cs) :
    digitsStarSplits cs = [([], cs)] := by
  unfold digitsStarSplits
  rw [takeWhile_headNot _ _ h, dropWhile_headNot _ _ h]
  rfl

theorem spacesStar_one (cs : List Char) (h : headNot isWs cs) :
    spacesStarSplits (' ' :: cs) = [([' '], cs), ([], ' ' :: cs)] := by
  unfold spacesStarSplits
  rw [show (' ' :: cs).takeWhile isWs = [' '] by
      simp [List.takeWhile_cons, isWs, takeWhile_headNot _ _ h],
    show (' ' :: cs).dropWhile isWs = cs by
      simp [List.dropWhile_cons, isWs, dropWhile_headNot _ _ h]]
  rfl

theorem litSplit_matches (lit u rest : List Char)
    (h : u.map Char.toLower = lit) : litSplit lit (u ++ rest) = [(u, rest)] := by
  have hlen : lit.length = u.length := by rw [← h, List.length_map]
  unfold litSplit
  rw [hlen, List.take_left, List.drop_left]
  rw [if_pos ⟨h, by simp⟩]

theorem litSplit_fail_head (a : Char) (lt : List Char) (c : Char)
    (cs : List Char) (h : c.toLower ≠ a) :
    litSplit (a :: lt) (c :: cs) = [] := by
  unfold litSplit
  rw [if_neg]
  intro hcon
  rw [List.length_cons, List.take_succ_cons, List.map_cons] at hcon
  exact h (List.cons.injEq .. ▸ hcon.1 |>.1)

theorem litSplit_fail_nil (a : Char) (lt : List Char) :
    litSplit (a :: lt) [] = [] := by
  unfold litSplit
  rw [if_neg]
  intro hcon
  simp at hcon

theorem litSplit_fail_second (a b : Char) (lt : List Char) (c d : Char)
    (cs : List Char) (h : d.toLower ≠ b) :
    litSplit (a :: b :: lt) (c :: d :: cs) = [] := by
  unfold litSplit
  rw [if_neg]
  intro hcon
  have := hcon.1
  simp only [List.length_cons, List.take_succ_cons, List.map_cons,
    List.cons.injEq] at this
  exact h this.2.1

theorem litSplit_fail_one (a b : Char) (lt : List Char) (c : Char) :
    litSplit (a :: b :: lt) [c] = [] := by
  unfold litSplit
  rw [if_neg]
  intro hcon
  have := congrArg List.length hcon.1
  simp at this

theorem thenM_cons (a : List Char) (r : List Char) (t : Splits)
    (f : List Char → Splits) :
    thenM ((a, r) :: t) f =
      (f r).map (fun q => (a ++ q.1, q.2)) ++ thenM t f := by
  simp [thenM]

theorem thenM_nil (f : List Char → Splits) : thenM [] f = [] := rfl

theorem tailName_not_ws (c : Char) (cs : List Char) (h : isWs c = false) :
    tailName? (c :: cs) = none := by
  simp [tailName?, h]

theorem tailName_sfx (w : List Char) (hw1 : headNot isWs w)
    (hw3 : w.all (fun c => !lineTerm c) = true) :
    tailName? (nameSfx w) = some w := by
  unfold nameSfx
  by_cases hw : w = []
  · subst hw; rfl
  · rw [if_neg hw]
    have hany : w.any lineTerm = false := by
      rw [← Bool.not_eq_true, List.any_eq_true]
      intro ⟨c, hc, hlc⟩
      have := List.all_eq_true.mp hw3 c hc
      simp [hlc] at this
    have hsp : isWs ' ' = true := rfl
    simp only [tailName?]
    rw [if_pos hsp]
    rw [show (' ' :: w).dropWhile isWs = w by
      rw [List.dropWhile_cons, if_pos hsp, dropWhile_headNot _ _ hw1]]
    rw [hany]
    rfl

/-- Under a head that is neither whitespace, a digit, nor an `s`, the
optional second duration token cannot match at all. -/
theorem secPart_nil_of_head (cs : List Char) (h1 : headNot isWs cs)
    (h2 : headNot isDigitC cs)
    (h3 : match cs with | [] => True | c :: _ => c.toLower ≠ 's') :
    secPartSplits cs = [] := by
  unfold secPartSplits
  rw [spacesStar_headNot cs h1, thenM_cons, thenM_nil,
    digitsStar_headNot cs h2]
  simp only [List.map_cons, List.map_nil, List.append_nil, List.nil_append]
  rw [thenM_cons, thenM_nil, spacesStar_headNot cs h1]
  simp only [List.map_cons, List.map_nil, List.append_nil, List.nil_append]
  rw [thenM_cons, thenM_nil]
  cases cs with
  | nil => rfl
  | cons c t =>
    unfold secAltSplits
    rw [litSplit_fail_head _ _ _ _ h3, litSplit_fail_head _ _ _ _ h3]
    rfl

end IntervalTimer

namespace IntervalTimer

theorem attemptUnit_none_head (u x : Char) (rest : List Char)
    (hx : isDigitC x = false) : attemptUnit u (x :: rest) = none := by
  unfold attemptUnit
  rw [takeWhile_headNot isDigitC (x :: rest)
    (show headNot isDigitC (x :: rest) from hx)]
  try rfl

theorem scanFor_nondigit (u x : Char) (rest : List Char)
    (hx : isDigitC x = false) : scanFor u (x :: rest) = scanFor u rest := by
  show (match attemptUnit u (x :: rest) with
    | some v => some v | none => scanFor u rest) = scanFor u rest
  rw [attemptUnit_none_head u x rest hx]

theorem scanFor_skip (u : Char) (rest : List Char) :
    ∀ l : List Char, (∀ c ∈ l, isDigitC c = false) →
      scanFor u (l ++ rest) = scanFor u rest := by
  intro l
  induction l with
  | nil => intro _; rfl
  | cons c t ih =>
    intro h
    rw [List.cons_append, scanFor_nondigit u c _ (h c (by simp))]
    exact ih (fun d hd => h d (by simp [hd]))

theorem attemptUnit_digits (u : Char) (ds rest : List Char) (h1 : ds ≠ [])
    (h2 : ∀ c ∈ ds, isDigitC c = true) (h3 : headNot isDigitC rest) :
    attemptUnit u (ds ++ rest) =
      (match rest.dropWhile isWs with
       | x :: _ => if x.toLower = u then some (natOfDigits ds) else none
       | [] => none) := by
  obtain ⟨htw, hdw⟩ := tw_append isDigitC ds rest h2 h3
  unfold attemptUnit
  rw [htw, hdw]
  dsimp only
  rw [if_neg h1]

theorem scanFor_found (u : Char) (ds rest : List Char) (h1 : ds ≠ [])
    (h2 : ∀ c ∈ ds, isDigitC c = true) (h3 : headNot isDigitC rest)
    (x : Char) (t : List Char) (hx : rest.dropWhile isWs = x :: t)
    (hu : x.toLower = u) :
    scanFor u (ds ++ rest) = some (natOfDigits ds) := by
  cases ds with
  | nil => exact absurd rfl h1
  | cons c ds' =>
    have ha : attemptUnit u ((c :: ds') ++ rest) = some (natOfDigits (c :: ds')) := by
      rw [attemptUnit_digits u (c :: ds') rest h1 h2 h3, hx]
      dsimp only
      rw [if_pos hu]
    show (match attemptUnit u ((c :: ds') ++ rest) with
      | some v => some v | none => scanFor u (ds' ++ rest)) = _
    rw [ha]

theorem scanFor_digits_skip (u : Char) (rest : List Char)
    (h3 : headNot isDigitC rest)
    (h4 : match rest.dropWhile isWs with
          | [] => True
          | x :: _ => x.toLower ≠ u) :
    ∀ ds : List Char, (∀ c ∈ ds, isDigitC c = true) →
      scanFor u (ds ++ rest) = scanFor u rest := by
  intro ds
  induction ds with
  | nil => intro _; rfl
  | cons c ds' ih =>
    intro h2
    have ha : attemptUnit u ((c :: ds') ++ rest) = none := by
      rw [attemptUnit_digits u (c :: ds') rest (by simp) h2 h3]
      cases hdr : rest.dropWhile isWs with
      | nil => rfl
      | cons x t =>
        rw [hdr] at h4
        have h4x : x.toLower ≠ u := h4
        dsimp only
        rw [if_neg h4x]
    show (match attemptUnit u ((c :: ds') ++ rest) with
      | some v => some v | none => scanFor u (ds' ++ rest)) = _
    rw [ha]
    exact ih (fun d hd => h2 d (by simp [hd]))

end IntervalTimer

namespace IntervalTimer

theorem thenM_append (l1 l2 : Splits) (f : List Char → Splits) :
    thenM (l1 ++ l2) f = thenM l1 f ++ thenM l2 f := by
  simp [thenM]

theorem litSplit_fail_sfx (a b : Char) (lt : List Char) (c : Char)
    (w : List Char) (hb : (' ' : Char).toLower ≠ b) :
    litSplit (a :: b :: lt) (c :: nameSfx w) = [] := by
  unfold nameSfx
  by_cases hw : w = []
  · rw [if_pos hw]; exact litSplit_fail_one a b lt c
  · rw [if_neg hw]; exact litSplit_fail_second a b lt c ' ' w hb

theorem trim_line (pre : List Char) (w : List Char)
    (hpre1 : headNot isWs pre) (hpre2 : headNot isWs pre.reverse)
    (hpren : pre ≠ []) (hw1 : headNot isWs w)
    (hw2 : headNot isWs w.reverse) :
    trimChars (pre ++ nameSfx w) = pre ++ nameSfx w := by
  apply trim_eq_self
  · exact headNot_append _ _ _ hpren hpre1
  · rw [List.reverse_append]
    by_cases hw : w = []
    · subst hw
      rw [show nameSfx ([] : List Char) = [] from rfl]
      exact hpre2
    · rw [show nameSfx w = ' ' :: w from if_neg hw, List.reverse_cons]
      have hwr : w.reverse ≠ [] := by
        intro hcon
        exact hw (by simpa using congrArg List.reverse hcon)
      apply headNot_append
      · intro hcon
        rcases List.append_eq_nil.mp hcon with ⟨h1, _⟩
        exact hwr h1
      · exact headNot_append _ _ _ hwr hw2

/-- The first backtracking layer of the duration group: maximal digits,
no whitespace, then the unit alternation; everything before the unit
alternation of the maximal-digit candidate is fixed. -/
theorem durGroup_unit (nds R : List Char) (hnd1 : nds ≠ [])
    (hnd2 : ∀ c ∈ nds, isDigitC c = true) (hR1 : headNot isDigitC R)
    (hR2 : headNot isWs R) :
    ∃ t, durGroupSplits (nds ++ R) =
      thenM ((unitAltSplits R).map (fun q => (nds ++ q.1, q.2)))
        optSecPartSplits ++ t := by
  obtain ⟨t0, h0⟩ := digitsPlus_cons nds R hnd1 hnd2 hR1
  unfold durGroupSplits
  rw [h0, thenM_cons, spacesStar_headNot R hR2]
  simp only [List.map_cons, List.map_nil, List.append_nil,
    List.singleton_append]
  rw [thenM_cons, thenM_append]
  exact ⟨_, rfl⟩

end IntervalTimer

namespace IntervalTimer

/-- Canonical minutes-only activity line: digits, an `m`/`min` unit in any
letter case, and an optional name after a space.  The name must be
trimmed, free of line terminators, and not begin with anything the
optional seconds token of the regex could absorb (`habs`). -/
theorem parseActivity_minutes (nds mu w : List Char)
    (hnd1 : nds ≠ []) (hnd2 : ∀ c ∈ nds, isDigitC c = true)
    (hmu : mu.map Char.toLower = ['m'] ∨ mu.map Char.toLower = ['m', 'i', 'n'])
    (hw1 : headNot isWs w) (hw2 : headNot isWs w.reverse)
    (hw3 : w.all (fun c => !lineTerm c) = true)
    (habs : secPartSplits (nameSfx w) = []) :
    parseActivityChars (nds ++ (mu ++ nameSfx w)) =
      some ⟨String.mk w, 60 * natOfDigits nds⟩ := by
  have hnw : headNot isWs nds := by
    cases nds with
    | nil => trivial
    | cons d t => exact not_ws_of_digit d (hnd2 d (by simp))
  have hoptsfx : optSecPartSplits (nameSfx w) = [([], nameSfx w)] := by
    unfold optSecPartSplits
    rw [habs]
    rfl
  have htail := tailName_sfx w hw1 hw3
  have htw : trimChars w = w := trim_eq_self w hw1 hw2
  rcases hmu with hmu | hmu
  · obtain ⟨c0, rfl, hc0⟩ := map_toLower_one mu 'm' hmu
    obtain ⟨hc0w, hc0d⟩ := clean_of_toLower c0 'm' hc0 (Or.inl rfl)
    simp only [List.cons_append, List.nil_append]
    have hline : trimChars (nds ++ (c0 :: nameSfx w)) =
        nds ++ (c0 :: nameSfx w) := by
      have ht := trim_line (nds ++ [c0]) w
        (headNot_append _ _ _ hnd1 hnw)
        (by rw [show (nds ++ [c0]).reverse = c0 :: nds.reverse by simp]
            exact hc0w)
        (by simp) hw1 hw2
      rw [List.append_assoc] at ht
      simpa using ht
    have hR1 : headNot isDigitC (c0 :: nameSfx w) := hc0d
    have hR2 : headNot isWs (c0 :: nameSfx w) := hc0w
    obtain ⟨t, hA⟩ := durGroup_unit nds (c0 :: nameSfx w) hnd1 hnd2 hR1 hR2
    have hunit : unitAltSplits (c0 :: nameSfx w) = [([c0], nameSfx w)] := by
      unfold unitAltSplits
      rw [show litSplit ['m'] (c0 :: nameSfx w) = [([c0], nameSfx w)] from
        litSplit_matches ['m'] [c0] (nameSfx w) (by simp [hc0])]
      rw [litSplit_fail_sfx 'm' 'i' ['n'] c0 w (by decide)]
      rw [litSplit_fail_head 's' [] c0 (nameSfx w) (by rw [hc0]; decide)]
      rw [litSplit_fail_head 's' ['e', 'c'] c0 (nameSfx w) (by rw [hc0]; decide)]
      rfl
    have h4 : (match ([c0] : List Char).dropWhile isWs with
        | [] => True | x :: _ => x.toLower ≠ 's' : Prop) := by
      rw [dropWhile_headNot isWs [c0] hc0w]
      show c0.toLower ≠ 's'
      rw [hc0]
      decide
    have hdm : scanFor 'm' (nds ++ [c0]) = some (natOfDigits nds) :=
      scanFor_found 'm' nds [c0] hnd1 hnd2 hc0d c0 []
        (dropWhile_headNot isWs [c0] hc0w) hc0
    have hds : scanFor 's' (nds ++ [c0]) = none := by
      rw [scanFor_digits_skip 's' [c0] hc0d h4 nds hnd2,
        scanFor_nondigit 's' c0 [] hc0d]
      rfl
    have hpd : parseDuration (nds ++ [c0]) = 60 * natOfDigits nds := by
      unfold parseDuration
      rw [hdm, hds]
      simp
    simp only [parseActivityChars]
    rw [hline, hA, hunit]
    simp only [List.map_cons, List.map_nil]
    rw [thenM_cons, thenM_nil, hoptsfx]
    simp only [List.map_cons, List.map_nil, List.append_nil, List.nil_append,
      List.cons_append]
    rw [List.findSome?_cons]
    dsimp only
    rw [htail]
    dsimp only [Option.map_some']
    rw [htw, hpd]
  · obtain ⟨c1, c2, c3, rfl, hc1, hc2, hc3⟩ := map_toLower_three mu 'm' 'i' 'n' hmu
    obtain ⟨hc1w, hc1d⟩ := clean_of_toLower c1 'm' hc1 (Or.inl rfl)
    obtain ⟨hc2w, hc2d⟩ := clean_of_toLower c2 'i' hc2 (Or.inr (Or.inl rfl))
    obtain ⟨hc3w, hc3d⟩ := clean_of_toLower c3 'n' hc3 (Or.inr (Or.inr (Or.inl rfl)))
    simp only [List.cons_append, List.nil_append]
    have hline : trimChars (nds ++ (c1 :: c2 :: c3 :: nameSfx w)) =
        nds ++ (c1 :: c2 :: c3 :: nameSfx w) := by
      have ht := trim_line (nds ++ [c1, c2, c3]) w
        (headNot_append _ _ _ hnd1 hnw)
        (by rw [show (nds ++ [c1, c2, c3]).reverse =
              c3 :: c2 :: c1 :: nds.reverse by simp]
            exact hc3w)
        (by simp) hw1 hw2
      rw [List.append_assoc] at ht
      simpa using ht
    have hR1 : headNot isDigitC (c1 :: c2 :: c3 :: nameSfx w) := hc1d
    have hR2 : headNot isWs (c1 :: c2 :: c3 :: nameSfx w) := hc1w
    obtain ⟨t, hA⟩ :=
      durGroup_unit nds (c1 :: c2 :: c3 :: nameSfx w) hnd1 hnd2 hR1 hR2
    have hunit : unitAltSplits (c1 :: c2 :: c3 :: nameSfx w) =
        [([c1], c2 :: c3 :: nameSfx w), ([c1, c2, c3], nameSfx w)] := by
      unfold unitAltSplits
      rw [show litSplit ['m'] (c1 :: c2 :: c3 :: nameSfx w) =
          [([c1], c2 :: c3 :: nameSfx w)] from
        litSplit_matches ['m'] [c1] (c2 :: c3 :: nameSfx w) (by simp [hc1])]
      rw [show litSplit ['m', 'i', 'n'] (c1 :: c2 :: c3 :: nameSfx w) =
          [([c1, c2, c3], nameSfx w)] from
        litSplit_matches ['m', 'i', 'n'] [c1, c2, c3] (nameSfx w)
          (by simp [hc1, hc2, hc3])]
      rw [litSplit_fail_head 's' [] c1 _ (by rw [hc1]; decide)]
      rw [litSplit_fail_head 's' ['e', 'c'] c1 _ (by rw [hc1]; decide)]
      rfl
    have hbadsec : secPartSplits (c2 :: c3 :: nameSfx w) = [] :=
      secPart_nil_of_head (c2 :: c3 :: nameSfx w) hc2w hc2d
        (show c2.toLower ≠ 's' by rw [hc2]; decide)
    have hbadopt : optSecPartSplits (c2 :: c3 :: nameSfx w) =
        [([], c2 :: c3 :: nameSfx w)] := by
      unfold optSecPartSplits
      rw [hbadsec]
      rfl
    have h4 : (match ([c1, c2, c3] : List Char).dropWhile isWs with
        | [] => True | x :: _ => x.toLower ≠ 's' : Prop) := by
      rw [dropWhile_headNot isWs [c1, c2, c3] hc1w]
      show c1.toLower ≠ 's'
      rw [hc1]
      decide
    have hdm : scanFor 'm' (nds ++ [c1, c2, c3]) = some (natOfDigits nds) :=
      scanFor_found 'm' nds [c1, c2, c3] hnd1 hnd2 hc1d c1 [c2, c3]
        (dropWhile_headNot isWs [c1, c2, c3] hc1w) hc1
    have hds : scanFor 's' (nds ++ [c1, c2, c3]) = none := by
      rw [scanFor_digits_skip 's' [c1, c2, c3] hc1d h4 nds hnd2,
        scanFor_nondigit 's' c1 _ hc1d, scanFor_nondigit 's' c2 _ hc2d,
        scanFor_nondigit 's' c3 _ hc3d]
      rfl
    have hpd : parseDuration (nds ++ [c1, c2, c3]) = 60 * natOfDigits nds := by
      unfold parseDuration
      rw [hdm, hds]
      simp
    simp only [parseActivityChars]
    rw [hline, hA, hunit]
    simp only [List.map_cons, List.map_nil]
    rw [thenM_cons, thenM_cons, thenM_nil, hbadopt, hoptsfx]
    simp only [List.map_cons, List.map_nil, List.append_nil, List.nil_append,
      List.cons_append]
    rw [List.findSome?_cons]
    dsimp only
    rw [tailName_not_ws c2 _ hc2w]
    dsimp only [Option.map_none']
    rw [List.findSome?_cons]
    dsimp only
    rw [htail]
    dsimp only [Option.map_some']
    rw [htw, hpd]

end IntervalTimer

namespace IntervalTimer

/-- Canonical seconds-only activity line: digits, an `s`/`sec` unit in any
letter case, and an optional name after a space (same conditions on the
name as in `parseActivity_minutes`). -/
theorem parseActivity_seconds (sds su w : List Char)
    (hsd1 : sds ≠ []) (hsd2 : ∀ c ∈ sds, isDigitC c = true)
    (hsu : su.map Char.toLower = ['s'] ∨ su.map Char.toLower = ['s', 'e', 'c'])
    (hw1 : headNot isWs w) (hw2 : headNot isWs w.reverse)
    (hw3 : w.all (fun c => !lineTerm c) = true)
    (habs : secPartSplits (nameSfx w) = []) :
    parseActivityChars (sds ++ (su ++ nameSfx w)) =
      some ⟨String.mk w, natOfDigits sds⟩ := by
  have hnw : headNot isWs sds := by
    cases sds with
    | nil => trivial
    | cons d t => exact not_ws_of_digit d (hsd2 d (by simp))
  have hoptsfx : optSecPartSplits (nameSfx w) = [([], nameSfx w)] := by
    unfold optSecPartSplits
    rw [habs]
    rfl
  have htail := tailName_sfx w hw1 hw3
  have htw : trimChars w = w := trim_eq_self w hw1 hw2
  rcases hsu with hsu | hsu
  · obtain ⟨s0, rfl, hs0⟩ := map_toLower_one su 's' hsu
    obtain ⟨hs0w, hs0d⟩ :=
      clean_of_toLower s0 's' hs0 (Or.inr (Or.inr (Or.inr (Or.inl rfl))))
    simp only [List.cons_append, List.nil_append]
    have hline : trimChars (sds ++ (s0 :: nameSfx w)) =
        sds ++ (s0 :: nameSfx w) := by
      have ht := trim_line (sds ++ [s0]) w
        (headNot_append _ _ _ hsd1 hnw)
        (by rw [show (sds ++ [s0]).reverse = s0 :: sds.reverse by simp]
            exact hs0w)
        (by simp) hw1 hw2
      rw [List.append_assoc] at ht
      simpa using ht
    obtain ⟨t, hA⟩ := durGroup_unit sds (s0 :: nameSfx w) hsd1 hsd2 hs0d hs0w
    have hunit : unitAltSplits (s0 :: nameSfx w) = [([s0], nameSfx w)] := by
      unfold unitAltSplits
      rw [litSplit_fail_head 'm' [] s0 (nameSfx w) (by rw [hs0]; decide)]
      rw [litSplit_fail_head 'm' ['i', 'n'] s0 (nameSfx w) (by rw [hs0]; decide)]
      rw [show litSplit ['s'] (s0 :: nameSfx w) = [([s0], nameSfx w)] from
        litSplit_matches ['s'] [s0] (nameSfx w) (by simp [hs0])]
      rw [litSplit_fail_sfx 's' 'e' ['c'] s0 w (by decide)]
      rfl
    have h4 : (match ([s0] : List Char).dropWhile isWs with
        | [] => True | x :: _ => x.toLower ≠ 'm' : Prop) := by
      rw [dropWhile_headNot isWs [s0] hs0w]
      show s0.toLower ≠ 'm'
      rw [hs0]
      decide
    have hdm : scanFor 'm' (sds ++ [s0]) = none := by
      rw [scanFor_digits_skip 'm' [s0] hs0d h4 sds hsd2,
        scanFor_nondigit 'm' s0 [] hs0d]
      rfl
    have hds : scanFor 's' (sds ++ [s0]) = some (natOfDigits sds) :=
      scanFor_found 's' sds [s0] hsd1 hsd2 hs0d s0 []
        (dropWhile_headNot isWs [s0] hs0w) hs0
    have hpd : parseDuration (sds ++ [s0]) = natOfDigits sds := by
      unfold parseDuration
      rw [hdm, hds]
      simp
    simp only [parseActivityChars]
    rw [hline, hA, hunit]
    simp only [List.map_cons, List.map_nil]
    rw [thenM_cons, thenM_nil, hoptsfx]
    simp only [List.map_cons, List.map_nil, List.append_nil, List.nil_append,
      List.cons_append]
    rw [List.findSome?_cons]
    dsimp only
    rw [htail]
    dsimp only [Option.map_some']
    rw [htw, hpd]
  · obtain ⟨s0, s1, s2, rfl, hs0, hs1, hs2⟩ :=
      map_toLower_three su 's' 'e' 'c' hsu
    obtain ⟨hs0w, hs0d⟩ :=
      clean_of_toLower s0 's' hs0 (Or.inr (Or.inr (Or.inr (Or.inl rfl))))
    obtain ⟨hs1w, hs1d⟩ :=
      clean_of_toLower s1 'e' hs1 (Or.inr (Or.inr (Or.inr (Or.inr (Or.inl rfl)))))
    obtain ⟨hs2w, hs2d⟩ :=
      clean_of_toLower s2 'c' hs2
        (Or.inr (Or.inr (Or.inr (Or.inr (Or.inr rfl)))))
    simp only [List.cons_append, List.nil_append]
    have hline : trimChars (sds ++ (s0 :: s1 :: s2 :: nameSfx w)) =
        sds ++ (s0 :: s1 :: s2 :: nameSfx w) := by
      have ht := trim_line (sds ++ [s0, s1, s2]) w
        (headNot_append _ _ _ hsd1 hnw)
        (by rw [show (sds ++ [s0, s1, s2]).reverse =
              s2 :: s1 :: s0 :: sds.reverse by simp]
            exact hs2w)
        (by simp) hw1 hw2
      rw [List.append_assoc] at ht
      simpa using ht
    obtain ⟨t, hA⟩ :=
      durGroup_unit sds (s0 :: s1 :: s2 :: nameSfx w) hsd1 hsd2 hs0d hs0w
    have hunit : unitAltSplits (s0 :: s1 :: s2 :: nameSfx w) =
        [([s0], s1 :: s2 :: nameSfx w), ([s0, s1, s2], nameSfx w)] := by
      unfold unitAltSplits
      rw [litSplit_fail_head 'm' [] s0 _ (by rw [hs0]; decide)]
      rw [litSplit_fail_head 'm' ['i', 'n'] s0 _ (by rw [hs0]; decide)]
      rw [show litSplit ['s'] (s0 :: s1 :: s2 :: nameSfx w) =
          [([s0], s1 :: s2 :: nameSfx w)] from
        litSplit_matches ['s'] [s0] (s1 :: s2 :: nameSfx w) (by simp [hs0])]
      rw [show litSplit ['s', 'e', 'c'] (s0 :: s1 :: s2 :: nameSfx w) =
          [([s0, s1, s2], nameSfx w)] from
        litSplit_matches ['s', 'e', 'c'] [s0, s1, s2] (nameSfx w)
          (by simp [hs0, hs1, hs2])]
      rfl
    have hbadsec : secPartSplits (s1 :: s2 :: nameSfx w) = [] :=
      secPart_nil_of_head (s1 :: s2 :: nameSfx w) hs1w hs1d
        (show s1.toLower ≠ 's' by rw [hs1]; decide)
    have hbadopt : optSecPartSplits (s1 :: s2 :: nameSfx w) =
        [([], s1 :: s2 :: nameSfx w)] := by
      unfold optSecPartSplits
      rw [hbadsec]
      rfl
    have h4 : (match ([s0, s1, s2] : List Char).dropWhile isWs with
        | [] => True | x :: _ => x.toLower ≠ 'm' : Prop) := by
      rw [dropWhile_headNot isWs [s0, s1, s2] hs0w]
      show s0.toLower ≠ 'm'
      rw [hs0]
      decide
    have hdm : scanFor 'm' (sds ++ [s0, s1, s2]) = none := by
      rw [scanFor_digits_skip 'm' [s0, s1, s2] hs0d h4 sds hsd2,
        scanFor_nondigit 'm' s0 _ hs0d, scanFor_nondigit 'm' s1 _ hs1d,
        scanFor_nondigit 'm' s2 _ hs2d]
      rfl
    have hds : scanFor 's' (sds ++ [s0, s1, s2]) = some (natOfDigits sds) :=
      scanFor_found 's' sds [s0, s1, s2] hsd1 hsd2 hs0d s0 [s1, s2]
        (dropWhile_headNot isWs [s0, s1, s2] hs0w) hs0
    have hpd : parseDuration (sds ++ [s0, s1, s2]) = natOfDigits sds := by
      unfold parseDuration
      rw [hdm, hds]
      simp
    simp only [parseActivityChars]
    rw [hline, hA, hunit]
    simp only [List.map_cons, List.map_nil]
    rw [thenM_cons, thenM_cons, thenM_nil, hbadopt, hoptsfx]
    simp only [List.map_cons, List.map_nil, List.append_nil, List.nil_append,
      List.cons_append]
    rw [List.findSome?_cons]
    dsimp only
    rw [tailName_not_ws s1 _ hs1w]
    dsimp only [Option.map_none']
    rw [List.findSome?_cons]
    dsimp only
    rw [htail]
    dsimp only [Option.map_some']
    rw [htw, hpd]

end IntervalTimer

namespace IntervalTimer

theorem headNot_isWs_reverse_append (l1 l2 : List Char) (h2 : l2 ≠ [])
    (h : headNot isWs l2.reverse) : headNot isWs (l1 ++ l2).reverse := by
  rw [List.reverse_append]
  apply headNot_append _ _ _ _ h
  intro hcon
  exact h2 (by simpa using congrArg List.reverse hcon)

theorem headNot_isWs_reverse_cons (c : Char) (l : List Char) (hl : l ≠ [])
    (h : headNot isWs l.reverse) : headNot isWs (c :: l).reverse := by
  rw [List.reverse_cons]
  apply headNot_append _ _ _ _ h
  intro hcon
  exact hl (by simpa using congrArg List.reverse hcon)

/-- The second duration token of the regex, `\s*\d*\s*(?:s|sec)`, on a
space, digits and a one-letter `s` unit: the greedy first candidate
consumes all of it. -/
theorem secPart_minsec_s (sds : List Char) (s0 : Char) (w : List Char)
    (hsd1 : sds ≠ []) (hsd2 : ∀ c ∈ sds, isDigitC c = true)
    (hs0w : isWs s0 = false) (hs0d : isDigitC s0 = false)
    (hs0 : s0.toLower = 's') :
    ∃ t, secPartSplits (' ' :: (sds ++ (s0 :: nameSfx w))) =
      ((' ' :: sds) ++ [s0], nameSfx w) :: t := by
  have hsdw : headNot isWs (sds ++ (s0 :: nameSfx w)) := by
    apply headNot_append _ _ _ hsd1
    cases sds with
    | nil => trivial
    | cons d t => exact not_ws_of_digit d (hsd2 d (by simp))
  have hsec : secAltSplits (s0 :: nameSfx w) = [([s0], nameSfx w)] := by
    unfold secAltSplits
    rw [show litSplit ['s'] (s0 :: nameSfx w) = [([s0], nameSfx w)] from
      litSplit_matches ['s'] [s0] (nameSfx w) (by simp [hs0])]
    rw [litSplit_fail_sfx 's' 'e' ['c'] s0 w (by decide)]
    rfl
  unfold secPartSplits
  rw [spacesStar_one _ hsdw, thenM_cons]
  obtain ⟨t1, hd1⟩ := digitsStar_cons sds (s0 :: nameSfx w) hsd2 hs0d
  rw [hd1]
  simp only [List.map_cons, List.cons_append, List.nil_append]
  rw [thenM_cons, spacesStar_headNot _ (show headNot isWs (s0 :: nameSfx w)
    from hs0w)]
  simp only [List.map_cons, List.map_nil, List.append_nil, List.cons_append,
    List.nil_append]
  rw [thenM_cons, hsec]
  simp only [List.map_cons, List.map_nil, List.cons_append, List.nil_append]
  exact ⟨_, rfl⟩

/-- As `secPart_minsec_s`, with a three-letter `sec` unit: the one-letter
`s` alternative is tried first and leaves the `ec` in the remainder; the
full token is the second candidate. -/
theorem secPart_minsec_sec (sds : List Char) (s0 s1 s2 : Char) (w : List Char)
    (hsd1 : sds ≠ []) (hsd2 : ∀ c ∈ sds, isDigitC c = true)
    (hs0w : isWs s0 = false) (hs0d : isDigitC s0 = false)
    (hs0 : s0.toLower = 's') (hs1 : s1.toLower = 'e') (hs2 : s2.toLower = 'c') :
    ∃ t, secPartSplits (' ' :: (sds ++ (s0 :: s1 :: s2 :: nameSfx w))) =
      ((' ' :: sds) ++ [s0], s1 :: s2 :: nameSfx w) ::
        ((' ' :: sds) ++ [s0, s1, s2], nameSfx w) :: t := by
  have hsdw : headNot isWs (sds ++ (s0 :: s1 :: s2 :: nameSfx w)) := by
    apply headNot_append _ _ _ hsd1
    cases sds with
    | nil => trivial
    | cons d t => exact not_ws_of_digit d (hsd2 d (by simp))
  have hsec : secAltSplits (s0 :: s1 :: s2 :: nameSfx w) =
      [([s0], s1 :: s2 :: nameSfx w), ([s0, s1, s2], nameSfx w)] := by
    unfold secAltSplits
    rw [show litSplit ['s'] (s0 :: s1 :: s2 :: nameSfx w) =
        [([s0], s1 :: s2 :: nameSfx w)] from
      litSplit_matches ['s'] [s0] (s1 :: s2 :: nameSfx w) (by simp [hs0])]
    rw [show litSplit ['s', 'e', 'c'] (s0 :: s1 :: s2 :: nameSfx w) =
        [([s0, s1, s2], nameSfx w)] from
      litSplit_matches ['s', 'e', 'c'] [s0, s1, s2] (nameSfx w)
        (by simp [hs0, hs1, hs2])]
    rfl
  unfold secPartSplits
  rw [spacesStar_one _ hsdw, thenM_cons]
  obtain ⟨t1, hd1⟩ :=
    digitsStar_cons sds (s0 :: s1 :: s2 :: nameSfx w) hsd2 hs0d
  rw [hd1]
  simp only [List.map_cons, List.cons_append, List.nil_append]
  rw [thenM_cons, spacesStar_headNot _
    (show headNot isWs (s0 :: s1 :: s2 :: nameSfx w) from hs0w)]
  simp only [List.map_cons, List.map_nil, List.append_nil, List.cons_append,
    List.nil_append]
  rw [thenM_cons, hsec]
  simp only [List.map_cons, List.map_nil, List.cons_append, List.nil_append]
  exact ⟨_, rfl⟩

end IntervalTimer

namespace IntervalTimer

/-- Evaluation of the duration-group candidate whose unit has already been
consumed (`a`), followed by the space, seconds digits and `s`/`sec` token:
the greedy second-token candidate wins and the name after it is captured. -/
theorem minsec_good_branch (a sds su w : List Char) (REST : Splits) (V : Nat)
    (hsd1 : sds ≠ []) (hsd2 : ∀ c ∈ sds, isDigitC c = true)
    (hsu : su.map Char.toLower = ['s'] ∨ su.map Char.toLower = ['s', 'e', 'c'])
    (hw1 : headNot isWs w) (hw2 : headNot isWs w.reverse)
    (hw3 : w.all (fun c => !lineTerm c) = true)
    (hpd : parseDuration (a ++ (' ' :: (sds ++ su))) = V) :
    ((thenM [(a, ' ' :: (sds ++ (su ++ nameSfx w)))] optSecPartSplits) ++
        REST).findSome?
      (fun gr => (tailName? gr.2).map
        (fun nm => (⟨⟨trimChars nm⟩, parseDuration gr.1⟩ : Activity))) =
      some ⟨String.mk w, V⟩ := by
  have htail := tailName_sfx w hw1 hw3
  have htw : trimChars w = w := trim_eq_self w hw1 hw2
  rcases hsu with hsu | hsu
  · obtain ⟨s0, rfl, hs0⟩ := map_toLower_one su 's' hsu
    obtain ⟨hs0w, hs0d⟩ :=
      clean_of_toLower s0 's' hs0 (Or.inr (Or.inr (Or.inr (Or.inl rfl))))
    simp only [List.cons_append, List.nil_append] at hpd ⊢
    obtain ⟨t2, hsp⟩ := secPart_minsec_s sds s0 w hsd1 hsd2 hs0w hs0d hs0
    have hopt : optSecPartSplits (' ' :: (sds ++ (s0 :: nameSfx w))) =
        ((' ' :: sds) ++ [s0], nameSfx w) ::
          (t2 ++ [([], ' ' :: (sds ++ (s0 :: nameSfx w)))]) := by
      unfold optSecPartSplits
      rw [hsp]
      rfl
    rw [thenM_cons, thenM_nil, hopt]
    simp only [List.map_cons, List.append_nil, List.cons_append,
      List.nil_append]
    rw [List.findSome?_cons]
    dsimp only
    rw [htail]
    dsimp only [Option.map_some']
    rw [htw, hpd]
  · obtain ⟨s0, s1, s2, rfl, hs0, hs1, hs2⟩ :=
      map_toLower_three su 's' 'e' 'c' hsu
    obtain ⟨hs0w, hs0d⟩ :=
      clean_of_toLower s0 's' hs0 (Or.inr (Or.inr (Or.inr (Or.inl rfl))))
    obtain ⟨hs1w, hs1d⟩ :=
      clean_of_toLower s1 'e' hs1
        (Or.inr (Or.inr (Or.inr (Or.inr (Or.inl rfl)))))
    simp only [List.cons_append, List.nil_append] at hpd ⊢
    obtain ⟨t2, hsp⟩ :=
      secPart_minsec_sec sds s0 s1 s2 w hsd1 hsd2 hs0w hs0d hs0 hs1 hs2
    have hopt : optSecPartSplits
        (' ' :: (sds ++ (s0 :: s1 :: s2 :: nameSfx w))) =
        ((' ' :: sds) ++ [s0], s1 :: s2 :: nameSfx w) ::
          ((' ' :: sds) ++ [s0, s1, s2], nameSfx w) ::
            (t2 ++ [([], ' ' :: (sds ++ (s0 :: s1 :: s2 :: nameSfx w)))]) := by
      unfold optSecPartSplits
      rw [hsp]
      rfl
    rw [thenM_cons, thenM_nil, hopt]
    simp only [List.map_cons, List.append_nil, List.cons_append,
      List.nil_append]
    rw [List.findSome?_cons]
    dsimp only
    rw [tailName_not_ws s1 _ hs1w]
    dsimp only [Option.map_none']
    rw [List.findSome?_cons]
    dsimp only
    rw [htail]
    dsimp only [Option.map_some']
    rw [htw, hpd]

end IntervalTimer

namespace IntervalTimer

/-- Canonical minutes-and-seconds activity line: minute digits, an
`m`/`min` unit, whitespace, second digits, an `s`/`sec` unit, all in any
letter case, and an optional name after a space (same conditions on the
name as in `parseActivity_minutes`). -/
theorem parseActivity_min_sec (nds mu sds su w : List Char)
    (hnd1 : nds ≠ []) (hnd2 : ∀ c ∈ nds, isDigitC c = true)
    (hmu : mu.map Char.toLower = ['m'] ∨ mu.map Char.toLower = ['m', 'i', 'n'])
    (hsd1 : sds ≠ []) (hsd2 : ∀ c ∈ sds, isDigitC c = true)
    (hsu : su.map Char.toLower = ['s'] ∨ su.map Char.toLower = ['s', 'e', 'c'])
    (hw1 : headNot isWs w) (hw2 : headNot isWs w.reverse)
    (hw3 : w.all (fun c => !lineTerm c) = true) :
    parseActivityChars (nds ++ (mu ++ (' ' :: (sds ++ (su ++ nameSfx w))))) =
      some ⟨String.mk w, 60 * natOfDigits nds + natOfDigits sds⟩ := by
  have hnw : headNot isWs nds := by
    cases nds with
    | nil => trivial
    | cons d t => exact not_ws_of_digit d (hnd2 d (by simp))
  have hsune : su ≠ [] := by
    rcases hsu with hsu | hsu <;>
      (intro hcon; rw [hcon] at hsu; simp at hsu)
  have hsurev : headNot isWs su.reverse := by
    rcases hsu with hsu | hsu
    · obtain ⟨s0, rfl, hs0⟩ := map_toLower_one su 's' hsu
      exact (clean_of_toLower s0 's' hs0
        (Or.inr (Or.inr (Or.inr (Or.inl rfl))))).1
    · obtain ⟨s0, s1, s2, rfl, hs0, hs1, hs2⟩ :=
        map_toLower_three su 's' 'e' 'c' hsu
      have hc := (clean_of_toLower s2 'c' hs2
        (Or.inr (Or.inr (Or.inr (Or.inr (Or.inr rfl)))))).1
      show headNot isWs ([s0, s1, s2] : List Char).reverse
      rw [show ([s0, s1, s2] : List Char).reverse = [s2, s1, s0] from rfl]
      exact hc
  have hss : scanFor 's' (sds ++ su) = some (natOfDigits sds) := by
    rcases hsu with hsu | hsu
    · obtain ⟨s0, rfl, hs0⟩ := map_toLower_one su 's' hsu
      obtain ⟨hs0w, hs0d⟩ := clean_of_toLower s0 's' hs0
        (Or.inr (Or.inr (Or.inr (Or.inl rfl))))
      exact scanFor_found 's' sds [s0] hsd1 hsd2 hs0d s0 []
        (dropWhile_headNot isWs [s0] hs0w) hs0
    · obtain ⟨s0, s1, s2, rfl, hs0, hs1, hs2⟩ :=
        map_toLower_three su 's' 'e' 'c' hsu
      obtain ⟨hs0w, hs0d⟩ := clean_of_toLower s0 's' hs0
        (Or.inr (Or.inr (Or.inr (Or.inl rfl))))
      exact scanFor_found 's' sds [s0, s1, s2] hsd1 hsd2 hs0d s0 [s1, s2]
        (dropWhile_headNot isWs [s0, s1, s2] hs0w) hs0
  rcases hmu with hmu | hmu
  · obtain ⟨c0, rfl, hc0⟩ := map_toLower_one mu 'm' hmu
    obtain ⟨hc0w, hc0d⟩ := clean_of_toLower c0 'm' hc0 (Or.inl rfl)
    simp only [List.cons_append, List.nil_append]
    have hline : trimChars (nds ++ (c0 :: ' ' :: (sds ++ (su ++ nameSfx w)))) =
        nds ++ (c0 :: ' ' :: (sds ++ (su ++ nameSfx w))) := by
      have hprev : headNot isWs
          (nds ++ ([c0] ++ (' ' :: (sds ++ su)))).reverse := by
        have h := headNot_isWs_reverse_append
          (nds ++ [c0] ++ (' ' :: sds)) su hsune hsurev
        have he : (nds ++ [c0] ++ (' ' :: sds)) ++ su =
            nds ++ ([c0] ++ (' ' :: (sds ++ su))) := by simp
        rwa [he] at h
      have ht := trim_line (nds ++ ([c0] ++ (' ' :: (sds ++ su)))) w
        (headNot_append _ _ _ hnd1 hnw) hprev (by simp) hw1 hw2
      simp only [List.append_assoc, List.cons_append, List.nil_append] at ht
      exact ht
    obtain ⟨t, hA⟩ := durGroup_unit nds
      (c0 :: ' ' :: (sds ++ (su ++ nameSfx w))) hnd1 hnd2 hc0d hc0w
    have hunit : unitAltSplits (c0 :: ' ' :: (sds ++ (su ++ nameSfx w))) =
        [([c0], ' ' :: (sds ++ (su ++ nameSfx w)))] := by
      unfold unitAltSplits
      rw [show litSplit ['m'] (c0 :: ' ' :: (sds ++ (su ++ nameSfx w))) =
          [([c0], ' ' :: (sds ++ (su ++ nameSfx w)))] from
        litSplit_matches ['m'] [c0] (' ' :: (sds ++ (su ++ nameSfx w)))
          (by simp [hc0])]
      rw [litSplit_fail_second 'm' 'i' ['n'] c0 ' '
        (sds ++ (su ++ nameSfx w)) (by decide)]
      rw [litSplit_fail_head 's' [] c0 _ (by rw [hc0]; decide)]
      rw [litSplit_fail_head 's' ['e', 'c'] c0 _ (by rw [hc0]; decide)]
      rfl
    have hshape : (nds ++ [c0]) ++ (' ' :: (sds ++ su)) =
        nds ++ (c0 :: ' ' :: (sds ++ su)) := by simp
    have hdm : scanFor 'm' (nds ++ (c0 :: ' ' :: (sds ++ su))) =
        some (natOfDigits nds) :=
      scanFor_found 'm' nds (c0 :: ' ' :: (sds ++ su)) hnd1 hnd2 hc0d c0
        (' ' :: (sds ++ su))
        (dropWhile_headNot isWs (c0 :: ' ' :: (sds ++ su)) hc0w) hc0
    have h4 : (match (c0 :: ' ' :: (sds ++ su)).dropWhile isWs with
        | [] => True | x :: _ => x.toLower ≠ 's' : Prop) := by
      rw [dropWhile_headNot isWs (c0 :: ' ' :: (sds ++ su)) hc0w]
      show c0.toLower ≠ 's'
      rw [hc0]
      decide
    have hds : scanFor 's' (nds ++ (c0 :: ' ' :: (sds ++ su))) =
        some (natOfDigits sds) := by
      rw [scanFor_digits_skip 's' (c0 :: ' ' :: (sds ++ su)) hc0d h4 nds hnd2,
        scanFor_nondigit 's' c0 _ hc0d,
        scanFor_nondigit 's' ' ' _ (by decide)]
      exact hss
    have hpd : parseDuration ((nds ++ [c0]) ++ (' ' :: (sds ++ su))) =
        60 * natOfDigits nds + natOfDigits sds := by
      rw [hshape]
      unfold parseDuration
      rw [hdm, hds]
      rfl
    simp only [parseActivityChars]
    rw [hline, hA, hunit]
    simp only [List.map_cons, List.map_nil]
    exact minsec_good_branch (nds ++ [c0]) sds su w t
      (60 * natOfDigits nds + natOfDigits sds) hsd1 hsd2 hsu hw1 hw2 hw3 hpd
  · obtain ⟨c1, c2, c3, rfl, hc1, hc2, hc3⟩ :=
      map_toLower_three mu 'm' 'i' 'n' hmu
    obtain ⟨hc1w, hc1d⟩ := clean_of_toLower c1 'm' hc1 (Or.inl rfl)
    obtain ⟨hc2w, hc2d⟩ := clean_of_toLower c2 'i' hc2 (Or.inr (Or.inl rfl))
    obtain ⟨hc3w, hc3d⟩ :=
      clean_of_toLower c3 'n' hc3 (Or.inr (Or.inr (Or.inl rfl)))
    simp only [List.cons_append, List.nil_append]
    have hline : trimChars
        (nds ++ (c1 :: c2 :: c3 :: ' ' :: (sds ++ (su ++ nameSfx w)))) =
        nds ++ (c1 :: c2 :: c3 :: ' ' :: (sds ++ (su ++ nameSfx w))) := by
      have hprev : headNot isWs
          (nds ++ ([c1, c2, c3] ++ (' ' :: (sds ++ su)))).reverse := by
        have h := headNot_isWs_reverse_append
          (nds ++ [c1, c2, c3] ++ (' ' :: sds)) su hsune hsurev
        have he : (nds ++ [c1, c2, c3] ++ (' ' :: sds)) ++ su =
            nds ++ ([c1, c2, c3] ++ (' ' :: (sds ++ su))) := by simp
        rwa [he] at h
      have ht := trim_line (nds ++ ([c1, c2, c3] ++ (' ' :: (sds ++ su)))) w
        (headNot_append _ _ _ hnd1 hnw) hprev (by simp) hw1 hw2
      simp only [List.append_assoc, List.cons_append, List.nil_append] at ht
      exact ht
    obtain ⟨t, hA⟩ := durGroup_unit nds
      (c1 :: c2 :: c3 :: ' ' :: (sds ++ (su ++ nameSfx w))) hnd1 hnd2 hc1d hc1w
    have hunit : unitAltSplits
        (c1 :: c2 :: c3 :: ' ' :: (sds ++ (su ++ nameSfx w))) =
        [([c1], c2 :: c3 :: ' ' :: (sds ++ (su ++ nameSfx w))),
         ([c1, c2, c3], ' ' :: (sds ++ (su ++ nameSfx w)))] := by
      unfold unitAltSplits
      rw [show litSplit ['m']
          (c1 :: c2 :: c3 :: ' ' :: (sds ++ (su ++ nameSfx w))) =
          [([c1], c2 :: c3 :: ' ' :: (sds ++ (su ++ nameSfx w)))] from
        litSplit_matches ['m'] [c1]
          (c2 :: c3 :: ' ' :: (sds ++ (su ++ nameSfx w))) (by simp [hc1])]
      rw [show litSplit ['m', 'i', 'n']
          (c1 :: c2 :: c3 :: ' ' :: (sds ++ (su ++ nameSfx w))) =
          [([c1, c2, c3], ' ' :: (sds ++ (su ++ nameSfx w)))] from
        litSplit_matches ['m', 'i', 'n'] [c1, c2, c3]
          (' ' :: (sds ++ (su ++ nameSfx w))) (by simp [hc1, hc2, hc3])]
      rw [litSplit_fail_head 's' [] c1 _ (by rw [hc1]; decide)]
      rw [litSplit_fail_head 's' ['e', 'c'] c1 _ (by rw [hc1]; decide)]
      rfl
    have hbadsec : secPartSplits
        (c2 :: c3 :: ' ' :: (sds ++ (su ++ nameSfx w))) = [] :=
      secPart_nil_of_head (c2 :: c3 :: ' ' :: (sds ++ (su ++ nameSfx w)))
        hc2w hc2d (show c2.toLower ≠ 's' by rw [hc2]; decide)
    have hbadopt : optSecPartSplits
        (c2 :: c3 :: ' ' :: (sds ++ (su ++ nameSfx w))) =
        [([], c2 :: c3 :: ' ' :: (sds ++ (su ++ nameSfx w)))] := by
      unfold optSecPartSplits
      rw [hbadsec]
      rfl
    have hshape : (nds ++ [c1, c2, c3]) ++ (' ' :: (sds ++ su)) =
        nds ++ (c1 :: c2 :: c3 :: ' ' :: (sds ++ su)) := by simp
    have hdm : scanFor 'm' (nds ++ (c1 :: c2 :: c3 :: ' ' :: (sds ++ su))) =
        some (natOfDigits nds) :=
      scanFor_found 'm' nds (c1 :: c2 :: c3 :: ' ' :: (sds ++ su)) hnd1 hnd2
        hc1d c1 (c2 :: c3 :: ' ' :: (sds ++ su))
        (dropWhile_headNot isWs (c1 :: c2 :: c3 :: ' ' :: (sds ++ su)) hc1w)
        hc1
    have h4 : (match (c1 :: c2 :: c3 :: ' ' :: (sds ++ su)).dropWhile isWs with
        | [] => True | x :: _ => x.toLower ≠ 's' : Prop) := by
      rw [dropWhile_headNot isWs (c1 :: c2 :: c3 :: ' ' :: (sds ++ su)) hc1w]
      show c1.toLower ≠ 's'
      rw [hc1]
      decide
    have hds : scanFor 's' (nds ++ (c1 :: c2 :: c3 :: ' ' :: (sds ++ su))) =
        some (natOfDigits sds) := by
      rw [scanFor_digits_skip 's' (c1 :: c2 :: c3 :: ' ' :: (sds ++ su))
        hc1d h4 nds hnd2,
        scanFor_nondigit 's' c1 _ hc1d, scanFor_nondigit 's' c2 _ hc2d,
        scanFor_nondigit 's' c3 _ hc3d,
        scanFor_nondigit 's' ' ' _ (by decide)]
      exact hss
    have hpd : parseDuration ((nds ++ [c1, c2, c3]) ++ (' ' :: (sds ++ su))) =
        60 * natOfDigits nds + natOfDigits sds := by
      rw [hshape]
      unfold parseDuration
      rw [hdm, hds]
      rfl
    simp only [parseActivityChars]
    rw [hline, hA, hunit]
    simp only [List.map_cons, List.map_nil]
    rw [thenM_cons, hbadopt]
    simp only [List.map_cons, List.map_nil, List.append_nil,
      List.append_assoc, List.cons_append, List.nil_append]
    rw [List.findSome?_cons]
    dsimp only
    rw [tailName_not_ws c2 _ hc2w]
    dsimp only [Option.map_none']
    exact minsec_good_branch (nds ++ [c1, c2, c3]) sds su w _
      (60 * natOfDigits nds + natOfDigits sds) hsd1 hsd2 hsu hw1 hw2 hw3 hpd

end IntervalTimer

namespace IntervalTimer

/-- Claim C7 (amended): `parseActivity` treats the trailing name as
optional (`45s` parses to name `` and duration 45), and a duration of the
form int-`m`/`min`, int-`s`/`sec`, or both in that order separated by
whitespace, contributes minutes times 60 plus seconds, matched
case-insensitively, with the trailing trimmed text becoming the name —
provided that text is not itself absorbable by the optional second
duration token of the regex (formally: `secPartSplits` finds no match in
the name suffix; a name such as `s`, `sec` or `5s` is instead swallowed
into the duration group). -/
theorem C7_duration_forms :
    parseActivity "45s" = some ⟨"", 45⟩ ∧
    (∀ nds mu w : List Char, nds ≠ [] → (∀ c ∈ nds, isDigitC c = true) →
      (mu.map Char.toLower = ['m'] ∨ mu.map Char.toLower = ['m', 'i', 'n']) →
      headNot isWs w → headNot isWs w.reverse →
      w.all (fun c => !lineTerm c) = true →
      secPartSplits (nameSfx w) = [] →
      parseActivityChars (nds ++ (mu ++ nameSfx w)) =
        some ⟨String.mk w, 60 * natOfDigits nds⟩) ∧
    (∀ sds su w : List Char, sds ≠ [] → (∀ c ∈ sds, isDigitC c = true) →
      (su.map Char.toLower = ['s'] ∨ su.map Char.toLower = ['s', 'e', 'c']) →
      headNot isWs w → headNot isWs w.reverse →
      w.all (fun c => !lineTerm c) = true →
      secPartSplits (nameSfx w) = [] →
      parseActivityChars (sds ++ (su ++ nameSfx w)) =
        some ⟨String.mk w, natOfDigits sds⟩) ∧
    (∀ nds mu sds su w : List Char,
      nds ≠ [] → (∀ c ∈ nds, isDigitC c = true) →
      (mu.map Char.toLower = ['m'] ∨ mu.map Char.toLower = ['m', 'i', 'n']) →
      sds ≠ [] → (∀ c ∈ sds, isDigitC c = true) →
      (su.map Char.toLower = ['s'] ∨ su.map Char.toLower = ['s', 'e', 'c']) →
      headNot isWs w → headNot isWs w.reverse →
      w.all (fun c => !lineTerm c) = true →
      parseActivityChars
          (nds ++ (mu ++ (' ' :: (sds ++ (su ++ nameSfx w))))) =
        some ⟨String.mk w, 60 * natOfDigits nds + natOfDigits sds⟩) :=
  ⟨by decide,
   fun nds mu w h1 h2 h3 h4 h5 h6 h7 =>
     parseActivity_minutes nds mu w h1 h2 h3 h4 h5 h6 h7,
   fun sds su w h1 h2 h3 h4 h5 h6 h7 =>
     parseActivity_seconds sds su w h1 h2 h3 h4 h5 h6 h7,
   fun nds mu sds su w h1 h2 h3 h4 h5 h6 h7 h8 h9 =>
     parseActivity_min_sec nds mu sds su w h1 h2 h3 h4 h5 h6 h7 h8 h9⟩

/-- Witness instantiating all three general forms of `C7_duration_forms`
at concrete inputs: `5MiN walk`, `45S` and `1m 30sec go`. -/
theorem C7_duration_forms_witness :
    parseActivityChars
        (['5'] ++ (['M', 'i', 'N'] ++ nameSfx ['w', 'a', 'l', 'k'])) =
      some ⟨String.mk ['w', 'a', 'l', 'k'], 60 * natOfDigits ['5']⟩ ∧
    parseActivityChars (['4', '5'] ++ (['S'] ++ nameSfx [])) =
      some ⟨String.mk [], natOfDigits ['4', '5']⟩ ∧
    parseActivityChars
        (['1'] ++ (['m'] ++ (' ' :: (['3', '0'] ++
          (['s', 'e', 'c'] ++ nameSfx ['g', 'o']))))) =
      some ⟨String.mk ['g', 'o'],
        60 * natOfDigits ['1'] + natOfDigits ['3', '0']⟩ :=
  ⟨C7_duration_forms.2.1 ['5'] ['M', 'i', 'N'] ['w', 'a', 'l', 'k']
      (by decide) (by decide) (by decide) rfl rfl (by decide) rfl,
   C7_duration_forms.2.2.1 ['4', '5'] ['S'] []
      (by decide) (by decide) (by decide) (by trivial) (by trivial)
      (by decide) rfl,
   C7_duration_forms.2.2.2 ['1'] ['m'] ['3', '0'] ['s', 'e', 'c']
      ['g', 'o'] (by decide) (by decide) (by decide) (by decide) (by decide)
      (by decide) rfl rfl (by decide)⟩

/-- Counterexample to claim C7 as stated: on the line `1m s` the trailing
trimmed text is `s`, but the optional second duration token of the regex
absorbs it with an empty digit string, so the parsed activity has name ``
(and duration 60), not name `s` as the claim's reading requires. -/
theorem C7_trailing_text_cex :
    parseActivity "1m s" = some ⟨"", 60⟩ ∧
      some (⟨"", 60⟩ : Activity) ≠ some (⟨"s", 60⟩ : Activity) := by
  constructor
  · decide
  · decide

end IntervalTimer
